import Mathlib

/-!
# Verification of the hyde site model (`hyde/site.py`)

A shallow embedding of the site-model tree of `hyde/site.py`: `Node`,
`Resource` and `RootNode` objects are represented in an explicit heap
(arena), with natural-number indices playing the role of Python object
identity.  Index `0` of the node heap is always the `RootNode` itself
(`RootNode` extends `Node` in the source, so the root has `child_nodes`
and `resources` of its own).

Filesystem paths (the `hyde.fs` `File`/`Folder` wrappers) are an external
collaborator of the core under specification; they are modelled as lists
of path segments, with `parent` = drop the last segment, equality =
segment-list equality, and descendant-of = prefix test.

Mutating methods are modelled as state transformers returning
`Except HydeException (RootNode × index)`; raising an exception in Python
aborts the method before any mutation that textually follows the `raise`,
which the embedding mirrors by returning `.error` before constructing the
new state.
-/

namespace Hyde

/-- A filesystem path, as a list of segments (external `hyde.fs` collaborator). -/
abbrev Path := List String

/-- `Folder.parent` / `File.parent`: the path with its last segment removed. -/
def parentPath (p : Path) : Path := p.dropLast

/-- Modelled from the spec: the path collaborator's ancestry test
(`is_descendant_of`, from the out-of-scope `hyde.fs` module): `anc` is a
(possibly improper) prefix of `p`. -/
def isDescendantOf (p anc : Path) : Bool := anc.isPrefixOf p

/-- Rendering of a path for exception messages (`%s` on a `Folder`/`File`). -/
def pathStr (p : Path) : String := String.intercalate "/" p

/-- Modelled from the spec: `hyde.exceptions.HydeException` (the module is not
under `src/`; `site.py` only imports it).  A single exception class carrying a
message — every failure in `site.py` is `raise HydeException(<message>)`. -/
structure HydeException where
  message : String
deriving Repr, DecidableEq

/-- Results of the mutating methods are compared in witnesses, so give
`Except` decidable equality (core does not derive it). -/
instance {e a : Type _} [DecidableEq e] [DecidableEq a] : DecidableEq (Except e a) := fun x y =>
  match x, y with
  | .error u, .error v =>
    if h : u = v then .isTrue (by rw [h])
    else .isFalse (by intro hc; injection hc; exact h (by assumption))
  | .error _, .ok _ => .isFalse (by intro hc; exact Except.noConfusion hc)
  | .ok _, .error _ => .isFalse (by intro hc; exact Except.noConfusion hc)
  | .ok u, .ok v =>
    if h : u = v then .isTrue (by rw [h])
    else .isFalse (by intro hc; injection hc; exact h (by assumption))

/-- The mutable fields of one `Node` object (`Node.__init__`): its source
folder, its parent (Python `None` or a heap reference), and the ordered
`child_nodes` / `resources` lists, holding heap indices.  The `root`,
`module` and `site` back-references of the source are not modelled: all nodes
here live in one `RootNode`'s heap, whose root is index `0`, and no modelled
method reads them. -/
structure NodeData where
  source_folder : Path
  parent : Option Nat
  child_nodes : List Nat
  resources : List Nat
deriving Repr, DecidableEq

/-- The fields of one `Resource` object: its source file and its owning node
(a heap index; `Resource.__init__` requires the node to be present, which the
total `Nat` field captures). -/
structure ResourceData where
  source_file : Path
  node : Nat
deriving Repr, DecidableEq

/-- One `RootNode` with the heap of every `Node`/`Resource` object of its
hierarchy, plus the two path-indexed tables (`node_map`, `resource_map`),
kept as insertion-ordered association lists exactly like a Python dict. -/
structure RootNode where
  source_folder : Path
  nodeHeap : List NodeData
  resHeap : List ResourceData
  node_map : List (Path × Nat)
  resource_map : List (Path × Nat)
deriving Repr, DecidableEq

/-- Placeholder node returned when dereferencing an invalid heap index. -/
def dNode : NodeData := { source_folder := [], parent := none, child_nodes := [], resources := [] }

/-- Placeholder resource returned when dereferencing an invalid heap index. -/
def dRes : ResourceData := { source_file := [], node := 0 }

/-- Dereference a node heap index. -/
def RootNode.nodeAt (r : RootNode) (i : Nat) : NodeData := r.nodeHeap.getD i dNode

/-- Dereference a resource heap index. -/
def RootNode.resAt (r : RootNode) (i : Nat) : ResourceData := r.resHeap.getD i dRes

/-- Python `dict.get(key, None)` on an insertion-ordered association list. -/
def lookupPath (m : List (Path × Nat)) (p : Path) : Option Nat :=
  (m.find? (fun e => e.1 = p)).map (fun e => e.2)

/-- Python `dict[key] = value`: overwrite in place if the key is present
(keeping its position, as Python dicts do), otherwise append. -/
def mapInsert (m : List (Path × Nat)) (p : Path) (v : Nat) : List (Path × Nat) :=
  if m.any (fun e => e.1 = p) then
    m.map (fun e => if e.1 = p then (p, v) else e)
  else
    m ++ [(p, v)]

/-- `RootNode.__init__(source_folder, site)`: one node (the root itself, heap
index `0`) and empty tables.  The `site` back-reference is not modelled. -/
def RootNode.init (source_folder : Path) : RootNode :=
  { source_folder := source_folder
    nodeHeap := [{ source_folder := source_folder, parent := none,
                   child_nodes := [], resources := [] }]
    resHeap := []
    node_map := []
    resource_map := [] }

/-- `RootNode.node_from_path`: the root itself if the path equals the root's
folder, else the node table entry, else `None`. -/
def RootNode.node_from_path (r : RootNode) (path : Path) : Option Nat :=
  if path = r.source_folder then some 0
  else lookupPath r.node_map path

/-- `RootNode.resource_from_path`: plain resource-table lookup. -/
def RootNode.resource_from_path (r : RootNode) (path : Path) : Option Nat :=
  lookupPath r.resource_map path

/-- `Node.add_child_node(folder)` for the node at heap index `selfIdx`:
raise unless `folder.parent == self.source_folder`; otherwise allocate
`Node(folder, self)` and append it to `self.child_nodes`. -/
def RootNode.add_child_node (r : RootNode) (selfIdx : Nat) (folder : Path) :
    Except HydeException (RootNode × Nat) :=
  let selfNode := r.nodeAt selfIdx
  if parentPath folder ≠ selfNode.source_folder then
    .error ⟨"The given folder [" ++ pathStr folder ++ "] is not a direct descendant of ["
            ++ pathStr selfNode.source_folder ++ "]"⟩
  else
    let newId := r.nodeHeap.length
    let child : NodeData :=
      { source_folder := folder, parent := some selfIdx, child_nodes := [], resources := [] }
    let heap := r.nodeHeap.set selfIdx
      { selfNode with child_nodes := selfNode.child_nodes ++ [newId] }
    .ok ({ r with nodeHeap := heap ++ [child] }, newId)

/-- `Node.add_child_resource(afile)` for the node at heap index `selfIdx`:
raise unless `afile.parent == self.source_folder`; otherwise allocate
`Resource(afile, self)` and append it to `self.resources`.  (The defensive
checks in `Resource.__init__` cannot fire here: `self` and `afile` are
always supplied.) -/
def RootNode.add_child_resource (r : RootNode) (selfIdx : Nat) (afile : Path) :
    Except HydeException (RootNode × Nat) :=
  let selfNode := r.nodeAt selfIdx
  if parentPath afile ≠ selfNode.source_folder then
    .error ⟨"The given file [" ++ pathStr afile ++ "] is not a direct descendant of ["
            ++ pathStr selfNode.source_folder ++ "]"⟩
  else
    let newId := r.resHeap.length
    let res : ResourceData := { source_file := afile, node := selfIdx }
    let heap := r.nodeHeap.set selfIdx
      { selfNode with resources := selfNode.resources ++ [newId] }
    .ok ({ r with nodeHeap := heap, resHeap := r.resHeap ++ [res] }, newId)

/-- The upward `while not parent` loop of `RootNode.add_node`: starting at
`p`, record each visited folder, step to its parent, and stop when the parent
maps to an existing node.  Fuel bounds the iteration count; `add_node` calls
it with fuel `p.length`, which suffices whenever `p` strictly descends from
the root (the checks preceding the loop in the source).  With the fuel
exhausted the result's second component is `none`, standing for the source's
divergence on inputs the preceding checks exclude. -/
def RootNode.climb (r : RootNode) : Path → Nat → List Path × Option Nat
  | _, 0 => ([], none)
  | p, fuel+1 =>
    let pp := parentPath p
    match r.node_from_path pp with
    | some nid => ([p], some nid)
    | none =>
      let rest := r.climb pp fuel
      (p :: rest.1, rest.2)

/-- The materialization loop of `RootNode.add_node`: for each folder of the
reversed hierarchy, `add_child_node` on the current frontier, register the
new node in the node table, and advance the frontier. -/
def RootNode.materialize : RootNode → Nat → List Path → Except HydeException (RootNode × Nat)
  | r, frontier, [] => .ok (r, frontier)
  | r, frontier, h :: t =>
    match r.add_child_node frontier h with
    | .error e => .error e
    | .ok (r1, nid) =>
      RootNode.materialize { r1 with node_map := mapInsert r1.node_map h nid } nid t

/-- `RootNode.add_node(a_folder)`: return the existing node if the path
already maps to one (the source also logs); raise if the folder does not
descend from the root; otherwise climb to the nearest existing ancestor and
materialize the missing chain top-down. -/
def RootNode.add_node (r : RootNode) (folder : Path) : Except HydeException (RootNode × Nat) :=
  match r.node_from_path folder with
  | some nid => .ok (r, nid)
  | none =>
    if ¬ isDescendantOf folder r.source_folder then
      .error ⟨"The given folder [" ++ pathStr folder ++ "] does not belong to this hierarchy ["
              ++ pathStr r.source_folder ++ "]"⟩
    else
      let hp := r.climb folder folder.length
      match hp.2 with
      | none => .error ⟨"climb diverged"⟩
      | some parent => r.materialize parent hp.1.reverse

/-- `RootNode.add_resource(a_file)`: an existing entry for the path is only
logged (the source does **not** return early); raise if the file does not
descend from the root; resolve or materialize the node for `afile.parent`;
`add_child_resource` on it; overwrite the resource-table entry. -/
def RootNode.add_resource (r : RootNode) (afile : Path) : Except HydeException (RootNode × Nat) :=
  if ¬ isDescendantOf afile r.source_folder then
    .error ⟨"The given file [" ++ pathStr afile ++ "] does not reside in this hierarchy ["
            ++ pathStr r.source_folder ++ "]"⟩
  else
    let nodeRes : Except HydeException (RootNode × Nat) :=
      match r.node_from_path (parentPath afile) with
      | some nid => .ok (r, nid)
      | none => r.add_node (parentPath afile)
    match nodeRes with
    | .error e => .error e
    | .ok (r1, nid) =>
      match r1.add_child_resource nid afile with
      | .error e => .error e
      | .ok (r2, rid) =>
        .ok ({ r2 with resource_map := mapInsert r2.resource_map afile rid }, rid)

/-- `Node.walk` generator, fuelled: yield the node, then each child's walk,
in child-array order.  `RootNode.walk` instantiates the fuel with the heap
size, which suffices whenever child indices strictly increase (true of every
heap the operations build, where children are allocated after parents). -/
def RootNode.walkAux (r : RootNode) : Nat → Nat → List Nat
  | 0, _ => []
  | fuel+1, nid => nid :: ((r.nodeAt nid).child_nodes.flatMap (r.walkAux fuel))

/-- `Node.walk()` started at heap index `nid`, as the list of yielded nodes. -/
def RootNode.walk (r : RootNode) (nid : Nat) : List Nat :=
  r.walkAux r.nodeHeap.length nid

/-- `Node.walk_resources()`: for each walked node, its resources in order. -/
def RootNode.walk_resources (r : RootNode) (nid : Nat) : List Nat :=
  (r.walk nid).flatMap (fun i => (r.nodeAt i).resources)

/-- The guard of `RootNode.load()` (`site.py` lines 271–273): raise
`HydeException` when the backing folder does not exist.  The filesystem is an
external collaborator, abstracted to the `sourceExists` flag; the walk that
follows the guard is likewise external and out of scope. -/
def RootNode.load_check (r : RootNode) (sourceExists : Bool) : Except HydeException Unit :=
  if sourceExists then .ok ()
  else .error ⟨"The given source folder[" ++ pathStr r.source_folder ++ "] does not exist"⟩

/-- One event of a filesystem walk delivered to the root: a directory
(`add_node`) or a file (`add_resource`). -/
inductive Op where
  | addNode (p : Path)
  | addResource (p : Path)
deriving Repr, DecidableEq

/-- Run one event, keeping only the state (the tree after the call). -/
def runOp (r : RootNode) : Op → Except HydeException RootNode
  | .addNode p => (r.add_node p).map Prod.fst
  | .addResource p => (r.add_resource p).map Prod.fst

/-- Run a sequence of events, stopping at the first failure. -/
def runOps (r : RootNode) : List Op → Except HydeException RootNode
  | [] => .ok r
  | o :: t =>
    match runOp r o with
    | .error e => .error e
    | .ok r1 => runOps r1 t

/-- The file paths passed to `add_resource` events of a sequence. -/
def resArgs (ops : List Op) : List Path :=
  ops.filterMap (fun o => match o with | .addResource p => some p | _ => none)

/-! ## Well-formedness of a heap

`nodesOK`/`nodeMapOK`/`resourcesOK` describe the states the operations build:
node `0` is the root; children are allocated after their parent, point back to
it, and every non-root node sits in exactly one child list; the node table is
a bijection between the non-root nodes and their paths; resources and their
owning nodes cross-reference each other.  All components are decidable, so a
concrete state can be checked by `decide`. -/

/-- Structural well-formedness of the node heap. -/
def nodesOK (r : RootNode) : Prop :=
  0 < r.nodeHeap.length ∧
  (r.nodeAt 0).source_folder = r.source_folder ∧
  (r.nodeAt 0).parent = none ∧
  (∀ i, i < r.nodeHeap.length → ∀ c ∈ (r.nodeAt i).child_nodes,
     i < c ∧ c < r.nodeHeap.length ∧ (r.nodeAt c).parent = some i) ∧
  (∀ i, i < r.nodeHeap.length → ((r.nodeAt i).child_nodes).Nodup) ∧
  (∀ c, c < r.nodeHeap.length → 0 < c →
     (r.nodeAt c).parent = some ((r.nodeAt c).parent.getD 0) ∧
     c ∈ (r.nodeAt ((r.nodeAt c).parent.getD 0)).child_nodes) ∧
  (∀ i, i < r.nodeHeap.length →
     isDescendantOf (r.nodeAt i).source_folder r.source_folder = true) ∧
  (∀ c, c < r.nodeHeap.length → 0 < c → (r.nodeAt c).source_folder ≠ r.source_folder)

/-- The node table is exactly the path-indexed view of the non-root nodes. -/
def nodeMapOK (r : RootNode) : Prop :=
  (∀ e ∈ r.node_map, 0 < e.2 ∧ e.2 < r.nodeHeap.length ∧
      (r.nodeAt e.2).source_folder = e.1 ∧ e.1 ≠ r.source_folder) ∧
  ((r.node_map.map Prod.fst).Nodup) ∧
  (∀ i, i < r.nodeHeap.length → 0 < i →
      lookupPath r.node_map ((r.nodeAt i).source_folder) = some i)

/-- Resources and their owning nodes cross-reference each other; the resource
table points into the resource heap. -/
def resourcesOK (r : RootNode) : Prop :=
  (∀ i, i < r.nodeHeap.length → ∀ rid ∈ (r.nodeAt i).resources,
      rid < r.resHeap.length ∧ (r.resAt rid).node = i) ∧
  (∀ i, i < r.nodeHeap.length → ((r.nodeAt i).resources).Nodup) ∧
  (∀ rid, rid < r.resHeap.length →
      (r.resAt rid).node < r.nodeHeap.length ∧
      rid ∈ (r.nodeAt (r.resAt rid).node).resources ∧
      parentPath (r.resAt rid).source_file = (r.nodeAt (r.resAt rid).node).source_folder) ∧
  (∀ e ∈ r.resource_map, e.2 < r.resHeap.length ∧ (r.resAt e.2).source_file = e.1) ∧
  ((r.resource_map.map Prod.fst).Nodup)

/-- Full well-formedness; holds of every state reachable by the operations. -/
def WF (r : RootNode) : Prop := nodesOK r ∧ nodeMapOK r ∧ resourcesOK r

/-- Every resource on the heap is found by looking its path up in the table.
Unlike `WF`, this is *not* preserved by `add_resource` on a duplicate path. -/
def resSync (r : RootNode) : Prop :=
  ∀ rid, rid < r.resHeap.length →
    lookupPath r.resource_map ((r.resAt rid).source_file) = some rid

/-- Children strictly follow their parent in allocation order (the fragment of
`nodesOK` that the walk enumeration depends on). -/
def ChildrenMono (r : RootNode) : Prop :=
  ∀ i, i < r.nodeHeap.length → ∀ c ∈ (r.nodeAt i).child_nodes,
    i < c ∧ c < r.nodeHeap.length

/-- The chain of ancestors of a node (itself included), following `parent`
back to the root, fuelled.  Under `nodesOK` parents strictly decrease, so
fuel `j + 1` always suffices. -/
def ancsA (r : RootNode) : Nat → Nat → List Nat
  | 0, j => [j]
  | fuel+1, j =>
    j :: (match (r.nodeAt j).parent with
          | none => []
          | some p => ancsA r fuel p)

/-- The ancestor chain of `j` (itself first, root last, under `nodesOK`). -/
def ancs (r : RootNode) (j : Nat) : List Nat := ancsA r j j

instance (r : RootNode) : Decidable (nodesOK r) := by unfold nodesOK; infer_instance

instance (r : RootNode) : Decidable (nodeMapOK r) := by unfold nodeMapOK; infer_instance

instance (r : RootNode) : Decidable (resourcesOK r) := by unfold resourcesOK; infer_instance

instance (r : RootNode) : Decidable (WF r) := by unfold WF; infer_instance

instance (r : RootNode) : Decidable (resSync r) := by unfold resSync; infer_instance

instance (r : RootNode) : Decidable (ChildrenMono r) := by unfold ChildrenMono; infer_instance

/-! ## Concrete states used to instantiate the theorems -/

/-- A root at `c` with one node whose path is `c/a/b` registered in the node
table — so the table holds a strict extension of the query path `c/a`. -/
def exactLookupState : RootNode :=
  { source_folder := ["c"]
    nodeHeap := [{ source_folder := ["c"], parent := none, child_nodes := [1], resources := [] },
                 { source_folder := ["c", "a", "b"], parent := some 0,
                   child_nodes := [], resources := [] }]
    resHeap := []
    node_map := [(["c", "a", "b"], 1)]
    resource_map := [] }

/-- The root at `c` after `add_resource` of the file `c/x` (used to exercise a
duplicate `add_resource`). -/
def dupResState : RootNode :=
  (((RootNode.init ["c"]).add_resource ["c", "x"]).toOption.getD (RootNode.init ["c"], 0)).1

/-- `dupResState` after a second `add_resource` of the same file `c/x`. -/
def dupResState2 : RootNode :=
  ((dupResState.add_resource ["c", "x"]).toOption.getD (dupResState, 0)).1

/-- The root at `c` after `add_node` of `c/a/b` (used to exercise idempotent
re-insertion). -/
def twoLevelState : RootNode :=
  (((RootNode.init ["c"]).add_node ["c", "a", "b"]).toOption.getD (RootNode.init ["c"], 0)).1

/-- A hand-built heap shaped root → [A, B], A → [A1]: indices 0, 1, 2, 3 hold
the root, `A`, `B` and `A1`, with `A1` allocated after `B` so that the
child-array order `[A, B]` under the root differs from allocation order. -/
def walkExampleState : RootNode :=
  { source_folder := ["c"]
    nodeHeap := [{ source_folder := ["c"], parent := none, child_nodes := [1, 2], resources := [] },
                 { source_folder := ["c", "A"], parent := some 0, child_nodes := [3], resources := [] },
                 { source_folder := ["c", "B"], parent := some 0, child_nodes := [], resources := [] },
                 { source_folder := ["c", "A", "A1"], parent := some 1,
                   child_nodes := [], resources := [] }]
    resHeap := []
    node_map := [(["c", "A"], 1), (["c", "B"], 2), (["c", "A", "A1"], 3)]
    resource_map := [] }

/-- A sample event sequence: a directory, then a file delivered before its
own parent directory has been visited. -/
def sampleOps : List Op :=
  [Op.addNode ["c", "a"], Op.addResource ["c", "blog", "2020", "post"]]

/-- The state `sampleOps` builds from a root at `c`. -/
def sampleOpsState : RootNode :=
  (runOps (RootNode.init ["c"]) sampleOps).toOption.getD (RootNode.init ["c"])

/-! ## Helper lemmas: list access and association lists -/

theorem nodeAt_ge {r : RootNode} {i : Nat} (h : r.nodeHeap.length ≤ i) :
    r.nodeAt i = dNode := by
  simp [RootNode.nodeAt, List.getD_eq_getElem?_getD, List.getElem?_eq_none h]

theorem getD_append_left {α : Type _} (l l' : List α) (d : α) {j : Nat} (h : j < l.length) :
    (l ++ l').getD j d = l.getD j d := by
  simp [List.getD_eq_getElem?_getD, List.getElem?_append, h]

theorem getD_concat_self {α : Type _} (l : List α) (c d : α) :
    (l ++ [c]).getD l.length d = c := by
  simp [List.getD_eq_getElem?_getD, List.getElem?_concat_length]

theorem getD_set_eq {α : Type _} (l : List α) (i : Nat) (x d : α) (h : i < l.length) :
    (l.set i x).getD i d = x := by
  simp [List.getD_eq_getElem?_getD, List.getElem?_set, h]

theorem getD_set_ne {α : Type _} (l : List α) {i j : Nat} (x d : α) (h : i ≠ j) :
    (l.set i x).getD j d = l.getD j d := by
  simp [List.getD_eq_getElem?_getD, List.getElem?_set, h]

theorem getD_set_append {α : Type _} (l : List α) (i : Nat) (x c d : α) (j : Nat)
    (hi : i < l.length) :
    (l.set i x ++ [c]).getD j d =
      if j = i then x else if j = l.length then c else l.getD j d := by
  by_cases hj1 : j = i
  · subst hj1
    rw [if_pos rfl, getD_append_left _ _ _ (by simpa using hi), getD_set_eq _ _ _ _ hi]
  · rw [if_neg hj1]
    by_cases hj2 : j = l.length
    · subst hj2
      rw [if_pos rfl]
      have : (l.set i x).length = l.length := by simp
      calc (l.set i x ++ [c]).getD l.length d
          = (l.set i x ++ [c]).getD (l.set i x).length d := by rw [this]
        _ = c := getD_concat_self _ _ _
    · rw [if_neg hj2]
      by_cases hj3 : j < l.length
      · rw [getD_append_left _ _ _ (by simpa using hj3), getD_set_ne _ _ _ (Ne.symm hj1)]
      · have h1 : l.length ≤ j := Nat.le_of_not_lt hj3
        have h2 : (l.set i x).length ≤ j := by simpa using h1
        have h3 : j - (l.set i x).length = j - l.length := by simp
        have h4 : (1 : Nat) ≤ j - l.length := by omega
        rw [List.getD_eq_getElem?_getD, List.getD_eq_getElem?_getD,
            List.getElem?_append_right h2, h3, List.getElem?_eq_none h1,
            List.getElem?_eq_none (by simpa using h4)]

theorem lookupPath_nil {p : Path} : lookupPath [] p = none := rfl

theorem lookupPath_cons {e : Path × Nat} {m : List (Path × Nat)} {p : Path} :
    lookupPath (e :: m) p = if e.1 = p then some e.2 else lookupPath m p := by
  by_cases h : e.1 = p <;> simp [lookupPath, List.find?_cons, h]

theorem lookupPath_eq_none {m : List (Path × Nat)} {p : Path} :
    lookupPath m p = none ↔ ∀ e ∈ m, e.1 ≠ p := by
  simp [lookupPath, List.find?_eq_none]

theorem lookupPath_mem {m : List (Path × Nat)} {p : Path} {v : Nat}
    (h : lookupPath m p = some v) : (p, v) ∈ m := by
  unfold lookupPath at h
  cases hf : m.find? (fun e => decide (e.1 = p)) with
  | none => rw [hf] at h; simp at h
  | some e =>
    have h1 := List.find?_some hf
    have h2 := List.mem_of_find?_eq_some hf
    rw [hf] at h
    simp at h h1
    obtain ⟨p', v'⟩ := e
    simp at h h1
    subst h1; subst h
    exact h2

theorem lookupPath_concat_self {m : List (Path × Nat)} {p : Path} {v : Nat}
    (h : ∀ e ∈ m, e.1 ≠ p) : lookupPath (m ++ [(p, v)]) p = some v := by
  induction m with
  | nil => simp [lookupPath]
  | cons e t ih =>
    rw [List.cons_append, lookupPath_cons, if_neg (h e (by simp))]
    exact ih (fun e' he' => h e' (by simp [he']))

theorem lookupPath_concat_ne {m : List (Path × Nat)} {p q : Path} {v : Nat}
    (h : q ≠ p) : lookupPath (m ++ [(p, v)]) q = lookupPath m q := by
  induction m with
  | nil => simp [lookupPath, Ne.symm h]
  | cons e t ih =>
    rw [List.cons_append, lookupPath_cons, lookupPath_cons]
    by_cases he : e.1 = q <;> simp [he, ih]

theorem mapInsert_of_fresh {m : List (Path × Nat)} {p : Path} {v : Nat}
    (h : ∀ e ∈ m, e.1 ≠ p) : mapInsert m p v = m ++ [(p, v)] := by
  unfold mapInsert
  have hc : ¬ (m.any (fun e => decide (e.1 = p)) = true) := by
    simp only [List.any_eq_true, decide_eq_true_eq]
    rintro ⟨e, he, heq⟩
    exact h e he heq
  rw [if_neg hc]

theorem lookup_overwrite_self {m : List (Path × Nat)} {p : Path} {v : Nat}
    (h : ∃ e ∈ m, e.1 = p) :
    lookupPath (m.map (fun e => if e.1 = p then (p, v) else e)) p = some v := by
  induction m with
  | nil => simp at h
  | cons e t ih =>
    by_cases he : e.1 = p
    · simp only [List.map_cons, if_pos he, lookupPath_cons]
      simp
    · simp only [List.map_cons, if_neg he, lookupPath_cons, if_neg he]
      apply ih
      obtain ⟨e', he', heq⟩ := h
      rcases List.mem_cons.mp he' with h1 | h2
      · exact absurd (h1 ▸ heq) he
      · exact ⟨e', h2, heq⟩

theorem lookup_overwrite_ne {m : List (Path × Nat)} {p q : Path} {v : Nat}
    (h : q ≠ p) :
    lookupPath (m.map (fun e => if e.1 = p then (p, v) else e)) q = lookupPath m q := by
  induction m with
  | nil => rfl
  | cons e t ih =>
    by_cases he : e.1 = p
    · simp only [List.map_cons, if_pos he, lookupPath_cons, lookupPath_cons]
      rw [if_neg (Ne.symm h), if_neg (by rw [he]; exact Ne.symm h)]
      exact ih
    · simp only [List.map_cons, if_neg he, lookupPath_cons, lookupPath_cons]
      by_cases heq : e.1 = q <;> simp [heq, ih]

theorem lookupPath_mapInsert_self {m : List (Path × Nat)} {p : Path} {v : Nat} :
    lookupPath (mapInsert m p v) p = some v := by
  unfold mapInsert
  by_cases hany : m.any (fun e => decide (e.1 = p))
  · rw [if_pos hany]
    simp only [List.any_eq_true, decide_eq_true_eq] at hany
    exact lookup_overwrite_self hany
  · rw [if_neg hany]
    apply lookupPath_concat_self
    intro e he heq
    exact hany (by simp only [List.any_eq_true, decide_eq_true_eq]; exact ⟨e, he, heq⟩)

theorem lookupPath_mapInsert_ne {m : List (Path × Nat)} {p q : Path} {v : Nat}
    (h : q ≠ p) : lookupPath (mapInsert m p v) q = lookupPath m q := by
  unfold mapInsert
  by_cases hany : m.any (fun e => decide (e.1 = p))
  · rw [if_pos hany]
    exact lookup_overwrite_ne h
  · rw [if_neg hany]
    exact lookupPath_concat_ne h

/-! ## Characterizations of the child-attaching methods -/

/-- The state produced by a successful `add_child_node`. -/
theorem add_child_node_ok {r : RootNode} {i : Nat} {f : Path}
    (h : parentPath f = (r.nodeAt i).source_folder) :
    r.add_child_node i f =
      .ok ({ r with nodeHeap :=
               (r.nodeHeap.set i
                 ({ r.nodeAt i with
                    child_nodes := (r.nodeAt i).child_nodes ++ [r.nodeHeap.length] }))
               ++ [{ source_folder := f, parent := some i,
                     child_nodes := [], resources := [] }] },
            r.nodeHeap.length) := by
  unfold RootNode.add_child_node
  rw [if_neg (not_not_intro h)]

/-- A successful `add_child_node` only has the state of the previous lemma. -/
theorem add_child_node_ok_elim {r r1 : RootNode} {i n : Nat} {f : Path}
    (h : r.add_child_node i f = .ok (r1, n)) :
    parentPath f = (r.nodeAt i).source_folder ∧
    n = r.nodeHeap.length ∧
    r1 = { r with nodeHeap :=
             (r.nodeHeap.set i
               ({ r.nodeAt i with
                  child_nodes := (r.nodeAt i).child_nodes ++ [r.nodeHeap.length] }))
             ++ [{ source_folder := f, parent := some i,
                   child_nodes := [], resources := [] }] } := by
  unfold RootNode.add_child_node at h
  by_cases hc : parentPath f ≠ (r.nodeAt i).source_folder
  · rw [if_pos hc] at h; exact absurd h (by simp)
  · rw [if_neg hc] at h
    have hc' := not_not.mp hc
    injection h with h'
    injection h' with h1 h2
    exact ⟨hc', h2.symm, h1.symm⟩

/-- The state produced by a successful `add_child_resource`. -/
theorem add_child_resource_ok {r : RootNode} {i : Nat} {f : Path}
    (h : parentPath f = (r.nodeAt i).source_folder) :
    r.add_child_resource i f =
      .ok ({ r with
              nodeHeap := (r.nodeHeap.set i
                ({ r.nodeAt i with
                   resources := (r.nodeAt i).resources ++ [r.resHeap.length] }))
              resHeap := r.resHeap ++ [{ source_file := f, node := i }] },
            r.resHeap.length) := by
  unfold RootNode.add_child_resource
  rw [if_neg (not_not_intro h)]

/-- A successful `add_child_resource` only has the state of the previous
lemma. -/
theorem add_child_resource_ok_elim {r r1 : RootNode} {i n : Nat} {f : Path}
    (h : r.add_child_resource i f = .ok (r1, n)) :
    parentPath f = (r.nodeAt i).source_folder ∧
    n = r.resHeap.length ∧
    r1 = { r with
            nodeHeap := (r.nodeHeap.set i
              ({ r.nodeAt i with
                 resources := (r.nodeAt i).resources ++ [r.resHeap.length] }))
            resHeap := r.resHeap ++ [{ source_file := f, node := i }] } := by
  unfold RootNode.add_child_resource at h
  by_cases hc : parentPath f ≠ (r.nodeAt i).source_folder
  · rw [if_pos hc] at h; exact absurd h (by simp)
  · rw [if_neg hc] at h
    have hc' := not_not.mp hc
    injection h with h'
    injection h' with h1 h2
    exact ⟨hc', h2.symm, h1.symm⟩

/-- Heap access after a successful `add_child_node`: the parent gained one
child index, index `|heap|` is the fresh node, everything else is unchanged. -/
theorem nodeAt_after_acn {r r1 : RootNode} {i n : Nat} {f : Path}
    (h : r.add_child_node i f = .ok (r1, n)) (hi : i < r.nodeHeap.length) (j : Nat) :
    r1.nodeAt j =
      if j = i then
        { r.nodeAt i with child_nodes := (r.nodeAt i).child_nodes ++ [r.nodeHeap.length] }
      else if j = r.nodeHeap.length then
        { source_folder := f, parent := some i, child_nodes := [], resources := [] }
      else r.nodeAt j := by
  obtain ⟨-, -, hr1⟩ := add_child_node_ok_elim h
  subst hr1
  exact getD_set_append r.nodeHeap i _ _ dNode j hi

/-- Bookkeeping after a successful `add_child_node`: one more node on the
heap, everything but the node heap untouched. -/
theorem misc_after_acn {r r1 : RootNode} {i n : Nat} {f : Path}
    (h : r.add_child_node i f = .ok (r1, n)) :
    n = r.nodeHeap.length ∧
    r1.nodeHeap.length = r.nodeHeap.length + 1 ∧
    r1.source_folder = r.source_folder ∧
    r1.resHeap = r.resHeap ∧
    r1.node_map = r.node_map ∧
    r1.resource_map = r.resource_map := by
  obtain ⟨-, hn, hr1⟩ := add_child_node_ok_elim h
  subst hr1
  refine ⟨hn, by simp, rfl, rfl, rfl, rfl⟩

/-- Heap access after a successful `add_child_resource`: the owner gained one
resource index, everything else is unchanged. -/
theorem nodeAt_after_acr {r r1 : RootNode} {i n : Nat} {f : Path}
    (h : r.add_child_resource i f = .ok (r1, n)) (hi : i < r.nodeHeap.length) (j : Nat) :
    r1.nodeAt j =
      if j = i then
        { r.nodeAt i with resources := (r.nodeAt i).resources ++ [r.resHeap.length] }
      else r.nodeAt j := by
  obtain ⟨-, -, hr1⟩ := add_child_resource_ok_elim h
  subst hr1
  show (r.nodeHeap.set i _).getD j dNode = _
  by_cases hj : j = i
  · subst hj; rw [getD_set_eq _ _ _ _ hi, if_pos rfl]
  · rw [getD_set_ne _ _ _ (Ne.symm hj), if_neg hj]
    rfl

/-- Resource heap access after a successful `add_child_resource`. -/
theorem resAt_after_acr {r r1 : RootNode} {i n : Nat} {f : Path}
    (h : r.add_child_resource i f = .ok (r1, n)) (j : Nat) :
    r1.resAt j =
      if j = r.resHeap.length then { source_file := f, node := i }
      else r.resAt j := by
  obtain ⟨-, -, hr1⟩ := add_child_resource_ok_elim h
  subst hr1
  show (r.resHeap ++ [_]).getD j dRes = _
  by_cases hj : j = r.resHeap.length
  · subst hj; rw [getD_concat_self, if_pos rfl]
  · rw [if_neg hj]
    show _ = r.resHeap.getD j dRes
    by_cases hlt : j < r.resHeap.length
    · exact getD_append_left _ _ _ hlt
    · have h1 : r.resHeap.length ≤ j := Nat.le_of_not_lt hlt
      have h4 : (1 : Nat) ≤ j - r.resHeap.length := by omega
      rw [List.getD_eq_getElem?_getD, List.getD_eq_getElem?_getD,
          List.getElem?_append_right h1, List.getElem?_eq_none h1,
          List.getElem?_eq_none (by simpa using h4)]

/-- Bookkeeping after a successful `add_child_resource`. -/
theorem misc_after_acr {r r1 : RootNode} {i n : Nat} {f : Path}
    (h : r.add_child_resource i f = .ok (r1, n)) :
    n = r.resHeap.length ∧
    r1.resHeap.length = r.resHeap.length + 1 ∧
    r1.nodeHeap.length = r.nodeHeap.length ∧
    r1.source_folder = r.source_folder ∧
    r1.node_map = r.node_map ∧
    r1.resource_map = r.resource_map := by
  obtain ⟨-, hn, hr1⟩ := add_child_resource_ok_elim h
  subst hr1
  refine ⟨hn, by simp, by simp, rfl, rfl, rfl⟩

/-! ## Claim theorems: rejection and lookup behaviour -/

/-- C6: calling `add_child_node` with a folder that is not a direct child of
the node's directory fails with the StructuralViolation `HydeException`; the
exception is raised before the node is constructed or appended, so no
successor state exists and the child list is untouched (the embedding
returns `.error` without producing a state). -/
theorem c6_add_child_node_rejects (r : RootNode) (selfIdx : Nat) (folder : Path)
    (h : parentPath folder ≠ (r.nodeAt selfIdx).source_folder) :
    r.add_child_node selfIdx folder =
      .error ⟨"The given folder [" ++ pathStr folder ++ "] is not a direct descendant of ["
              ++ pathStr (r.nodeAt selfIdx).source_folder ++ "]"⟩ := by
  unfold RootNode.add_child_node
  rw [if_pos h]

/-- Witness for C6 at a concrete input: attaching `c/a/b` directly to the
root `c` is rejected. -/
theorem c6_add_child_node_rejects_witness :
    parentPath ["c", "a", "b"] ≠ ((RootNode.init ["c"]).nodeAt 0).source_folder ∧
    (RootNode.init ["c"]).add_child_node 0 ["c", "a", "b"] =
      .error ⟨"The given folder [" ++ pathStr ["c", "a", "b"]
              ++ "] is not a direct descendant of ["
              ++ pathStr ((RootNode.init ["c"]).nodeAt 0).source_folder ++ "]"⟩ :=
  ⟨by decide, c6_add_child_node_rejects (RootNode.init ["c"]) 0 ["c", "a", "b"] (by decide)⟩

/-- C7: `node_from_path` returns the root itself (heap index `0`) when the
query equals the root's directory path, and otherwise performs an exact
node-table lookup; in particular, a query that is neither the root's path nor
a table key yields `none` even when table keys extend it (no partial or
prefix matching). -/
theorem c7_node_from_path_exact (r : RootNode) (p : Path) :
    (p = r.source_folder → r.node_from_path p = some 0) ∧
    (p ≠ r.source_folder → r.node_from_path p = lookupPath r.node_map p) ∧
    (p ≠ r.source_folder → (∀ e ∈ r.node_map, e.1 ≠ p) → r.node_from_path p = none) := by
  refine ⟨fun h => ?_, fun h => ?_, fun h hk => ?_⟩ <;> unfold RootNode.node_from_path
  · rw [if_pos h]
  · rw [if_neg h]
  · rw [if_neg h]
    exact lookupPath_eq_none.mpr hk

/-- Witness for C7: with `c/a/b` in the table, the strict prefix `c/a` is not
matched. -/
theorem c7_node_from_path_exact_witness :
    (["c", "a"] ≠ exactLookupState.source_folder) ∧
    (∀ e ∈ exactLookupState.node_map, e.1 ≠ ["c", "a"]) ∧
    exactLookupState.node_from_path ["c", "a"] = none :=
  ⟨by decide, by decide,
   (c7_node_from_path_exact exactLookupState ["c", "a"]).2.2 (by decide) (by decide)⟩

/-- C9: the three failure kinds the spec names — MissingSource (`load` on a
missing root), StructuralViolation (non-direct-child attach) and
OutOfHierarchy (path outside the root) — are each raised as the single
exception class `HydeException`, distinguishable only by their message
strings (shown pairwise distinct below), never by type. -/
theorem c9_single_exception_class :
    ((RootNode.init ["c"]).load_check false =
        .error (HydeException.mk "The given source folder[c] does not exist")) ∧
    ((RootNode.init ["c"]).add_child_node 0 ["c", "a", "b"] =
        .error (HydeException.mk
          "The given folder [c/a/b] is not a direct descendant of [c]")) ∧
    ((RootNode.init ["c"]).add_node ["d"] =
        .error (HydeException.mk
          "The given folder [d] does not belong to this hierarchy [c]")) ∧
    HydeException.mk "The given source folder[c] does not exist" ≠
      HydeException.mk "The given folder [c/a/b] is not a direct descendant of [c]" ∧
    HydeException.mk "The given source folder[c] does not exist" ≠
      HydeException.mk "The given folder [d] does not belong to this hierarchy [c]" ∧
    HydeException.mk "The given folder [c/a/b] is not a direct descendant of [c]" ≠
      HydeException.mk "The given folder [d] does not belong to this hierarchy [c]" := by
  refine ⟨rfl, ?_, ?_, by decide, by decide, by decide⟩ <;> rfl

/-- C10: `add_child_node` has no duplicate check: two successive calls with
the same direct-child folder both succeed, allocate two distinct `Node`
objects (fresh heap indices `|heap|` and `|heap| + 1`), and leave two entries
for that folder in the parent's child list. -/
theorem c10_add_child_node_no_dedup (r : RootNode) (i : Nat) (f : Path)
    (hi : i < r.nodeHeap.length)
    (h : parentPath f = (r.nodeAt i).source_folder) :
    ∃ r1 r2 : RootNode,
      r.add_child_node i f = .ok (r1, r.nodeHeap.length) ∧
      r1.add_child_node i f = .ok (r2, r.nodeHeap.length + 1) ∧
      r.nodeHeap.length ≠ r.nodeHeap.length + 1 ∧
      (r2.nodeAt i).child_nodes =
        (r.nodeAt i).child_nodes ++ [r.nodeHeap.length, r.nodeHeap.length + 1] ∧
      (r2.nodeAt r.nodeHeap.length).source_folder = f ∧
      (r2.nodeAt (r.nodeHeap.length + 1)).source_folder = f := by
  obtain ⟨r1, hr1ok⟩ : ∃ r1, r.add_child_node i f = .ok (r1, r.nodeHeap.length) :=
    ⟨_, add_child_node_ok h⟩
  have hat1 := nodeAt_after_acn hr1ok hi
  obtain ⟨-, hlen1, -, -, -, -⟩ := misc_after_acn hr1ok
  have hfold1 : (r1.nodeAt i).source_folder = (r.nodeAt i).source_folder := by
    rw [hat1 i, if_pos rfl]
  have hi1 : i < r1.nodeHeap.length := by omega
  obtain ⟨r2, hr2ok⟩ : ∃ r2, r1.add_child_node i f = .ok (r2, r1.nodeHeap.length) :=
    ⟨_, add_child_node_ok (by rw [hfold1]; exact h)⟩
  have hat2 := nodeAt_after_acn hr2ok hi1
  refine ⟨r1, r2, hr1ok, ?_, by omega, ?_, ?_, ?_⟩
  · rw [hr2ok, hlen1]
  · rw [hat2 i, if_pos rfl]
    show (r1.nodeAt i).child_nodes ++ [r1.nodeHeap.length] =
      (r.nodeAt i).child_nodes ++ [r.nodeHeap.length, r.nodeHeap.length + 1]
    rw [hlen1, hat1 i, if_pos rfl]
    show ((r.nodeAt i).child_nodes ++ [r.nodeHeap.length]) ++ [r.nodeHeap.length + 1] =
      (r.nodeAt i).child_nodes ++ [r.nodeHeap.length, r.nodeHeap.length + 1]
    simp [List.append_assoc]
  · rw [hat2 r.nodeHeap.length, if_neg (by omega), if_neg (by omega),
        hat1 r.nodeHeap.length, if_neg (by omega), if_pos rfl]
  · rw [hat2 (r.nodeHeap.length + 1), if_neg (by omega), if_pos (by omega)]

/-- Witness for C10: attaching `c/a` to the root `c` twice yields nodes `1`
and `2` and the child list `[1, 2]`. -/
theorem c10_add_child_node_no_dedup_witness :
    0 < (RootNode.init ["c"]).nodeHeap.length ∧
    parentPath ["c", "a"] = ((RootNode.init ["c"]).nodeAt 0).source_folder ∧
    (∃ r1 r2 : RootNode,
      (RootNode.init ["c"]).add_child_node 0 ["c", "a"] =
        .ok (r1, (RootNode.init ["c"]).nodeHeap.length) ∧
      r1.add_child_node 0 ["c", "a"] =
        .ok (r2, (RootNode.init ["c"]).nodeHeap.length + 1) ∧
      (RootNode.init ["c"]).nodeHeap.length ≠ (RootNode.init ["c"]).nodeHeap.length + 1 ∧
      (r2.nodeAt 0).child_nodes =
        ((RootNode.init ["c"]).nodeAt 0).child_nodes ++
          [(RootNode.init ["c"]).nodeHeap.length, (RootNode.init ["c"]).nodeHeap.length + 1] ∧
      (r2.nodeAt (RootNode.init ["c"]).nodeHeap.length).source_folder = ["c", "a"] ∧
      (r2.nodeAt ((RootNode.init ["c"]).nodeHeap.length + 1)).source_folder = ["c", "a"]) :=
  ⟨by decide, by decide,
   c10_add_child_node_no_dedup (RootNode.init ["c"]) 0 ["c", "a"] (by decide) (by decide)⟩

/-- C8: a path that does not descend from the root's directory (and, for
`add_node`, does not already map to an object) makes `add_node` and
`add_resource` fail with the OutOfHierarchy `HydeException`; both raises
precede every mutation, so the tree and the tables are untouched (no success
state is produced). -/
theorem c8_out_of_hierarchy (r : RootNode) (p f : Path)
    (hp : r.node_from_path p = none)
    (hd : isDescendantOf p r.source_folder = false)
    (hf : isDescendantOf f r.source_folder = false) :
    r.add_node p =
      .error ⟨"The given folder [" ++ pathStr p ++ "] does not belong to this hierarchy ["
              ++ pathStr r.source_folder ++ "]"⟩ ∧
    r.add_resource f =
      .error ⟨"The given file [" ++ pathStr f ++ "] does not reside in this hierarchy ["
              ++ pathStr r.source_folder ++ "]"⟩ := by
  constructor
  · unfold RootNode.add_node
    simp only [hp]
    rw [if_pos (by simp [hd])]
  · unfold RootNode.add_resource
    rw [if_pos (by simp [hf])]

/-! ## Idempotence of `add_node` (C2) -/

/-- With positive fuel, the hierarchy list the climb loop records starts with
the folder the loop was entered on. -/
theorem climb_cons (r : RootNode) (p : Path) (fuel : Nat) :
    ∃ t, (r.climb p (fuel + 1)).1 = p :: t := by
  unfold RootNode.climb
  cases h : r.node_from_path (parentPath p) <;> simp [h]

/-- After a successful materialization run, the node table maps the last
materialized folder to the returned node, and the root path is unchanged. -/
theorem materialize_lookup_concat {l₀ : List Path} {x : Path} :
    ∀ {r : RootNode} {fr : Nat} {r' : RootNode} {nid : Nat},
      RootNode.materialize r fr (l₀ ++ [x]) = .ok (r', nid) →
      lookupPath r'.node_map x = some nid ∧ r'.source_folder = r.source_folder := by
  induction l₀ with
  | nil =>
    intro r fr r' nid h
    rw [List.nil_append] at h
    unfold RootNode.materialize at h
    cases hacn : r.add_child_node fr x with
    | error e => rw [hacn] at h; exact absurd h (by simp)
    | ok p1 =>
      obtain ⟨r1, n1⟩ := p1
      rw [hacn] at h
      obtain ⟨-, -, hsf, -, -, -⟩ := misc_after_acn hacn
      unfold RootNode.materialize at h
      injection h with h'
      injection h' with h1 h2
      subst h1; subst h2
      exact ⟨lookupPath_mapInsert_self, hsf⟩
  | cons y t ih =>
    intro r fr r' nid h
    rw [List.cons_append] at h
    unfold RootNode.materialize at h
    cases hacn : r.add_child_node fr y with
    | error e => rw [hacn] at h; exact absurd h (by simp)
    | ok p1 =>
      obtain ⟨r1, n1⟩ := p1
      rw [hacn] at h
      obtain ⟨-, -, hsf, -, -, -⟩ := misc_after_acn hacn
      obtain ⟨hl, hsf'⟩ := ih h
      exact ⟨hl, hsf'.trans hsf⟩

/-- After a successful `add_node`, looking the argument path up again finds
exactly the returned node, and the root path is unchanged. -/
theorem add_node_lookup_self {r : RootNode} {p : Path} {r' : RootNode} {nid : Nat}
    (h : r.add_node p = .ok (r', nid)) :
    r'.node_from_path p = some nid ∧ r'.source_folder = r.source_folder := by
  unfold RootNode.add_node at h
  cases hnp : r.node_from_path p with
  | some nid0 =>
    rw [hnp] at h
    injection h with h'
    injection h' with h1 h2
    subst h1; subst h2
    exact ⟨hnp, rfl⟩
  | none =>
    simp only [hnp] at h
    by_cases hdesc : isDescendantOf p r.source_folder = true
    · rw [if_neg (by simp [hdesc])] at h
      cases hcl : (r.climb p p.length).2 with
      | none =>
        simp only [hcl] at h
        exact absurd h (by simp)
      | some anc =>
        simp only [hcl] at h
        cases hpl : p.length with
        | zero =>
          rw [hpl] at hcl
          simp [RootNode.climb] at hcl
        | succ k =>
          rw [hpl] at hcl h
          obtain ⟨t, hct⟩ := climb_cons r p k
          rw [hct, List.reverse_cons] at h
          obtain ⟨hl, hsf⟩ := materialize_lookup_concat h
          have hpne : p ≠ r.source_folder := by
            intro hcon
            rw [RootNode.node_from_path, if_pos hcon] at hnp
            exact absurd hnp (by simp)
          refine ⟨?_, hsf⟩
          rw [RootNode.node_from_path, if_neg (by rw [hsf]; exact hpne)]
          exact hl
    · rw [if_pos (by simpa using hdesc)] at h
      exact absurd h (by simp)

/-- C2: `add_node` is idempotent — after a successful `add_node(p)` returned
node `nid` in state `r'`, calling `add_node(p)` again returns the very same
node object `nid` and the very same state `r'` (in particular the node table
is unchanged, so no duplicate entry for `p` is created). -/
theorem c2_add_node_idempotent (r : RootNode) (p : Path) (r' : RootNode) (nid : Nat)
    (h : r.add_node p = .ok (r', nid)) :
    r'.add_node p = .ok (r', nid) := by
  obtain ⟨hl, -⟩ := add_node_lookup_self h
  unfold RootNode.add_node
  simp only [hl]

/-- Witness for C2: re-adding `c/a/b` after it was first materialized returns
the same node (index 2) and the same state. -/
theorem c2_add_node_idempotent_witness :
    (RootNode.init ["c"]).add_node ["c", "a", "b"] = .ok (twoLevelState, 2) ∧
    twoLevelState.add_node ["c", "a", "b"] = .ok (twoLevelState, 2) :=
  ⟨by decide,
   c2_add_node_idempotent (RootNode.init ["c"]) ["c", "a", "b"] twoLevelState 2 (by decide)⟩

/-! ## Re-adding an existing resource path (C1) -/

/-- A path descends from the root whenever its parent does. -/
theorem isDescendantOf_of_parent {f R : Path}
    (h : isDescendantOf (parentPath f) R = true) : isDescendantOf f R = true := by
  unfold isDescendantOf at h ⊢
  rw [List.isPrefixOf_iff_prefix] at h ⊢
  exact h.trans (List.dropLast_prefix f)

/-- The facts `add_resource` relies on when its argument is already in the
resource table of a well-formed state: the entry points at a live resource
with that path, whose owning node is live, holds it, and carries the file's
parent directory as its path; the file descends from the root and
`node_from_path` of its parent finds exactly the owning node. -/
theorem dup_resource_facts {r : RootNode} {f : Path} {j : Nat}
    (hwf : WF r) (hf : r.resource_from_path f = some j) :
    j < r.resHeap.length ∧ (r.resAt j).source_file = f ∧
    (r.resAt j).node < r.nodeHeap.length ∧
    j ∈ (r.nodeAt (r.resAt j).node).resources ∧
    parentPath f = (r.nodeAt (r.resAt j).node).source_folder ∧
    isDescendantOf f r.source_folder = true ∧
    r.node_from_path (parentPath f) = some (r.resAt j).node := by
  obtain ⟨hnodes, hmap, hres⟩ := hwf
  obtain ⟨hn1, hn2, hn3, hn4, hn5, hn6, hn7, hn8⟩ := hnodes
  obtain ⟨hm1, hm2, hm3⟩ := hmap
  obtain ⟨hres1, hres2, hres3, hres4, hres5⟩ := hres
  have hmem : (f, j) ∈ r.resource_map := lookupPath_mem hf
  obtain ⟨hjlt0, hjf0⟩ := hres4 _ hmem
  have hjlt : j < r.resHeap.length := hjlt0
  have hjf : (r.resAt j).source_file = f := hjf0
  obtain ⟨hownlt, hjmem, hppx⟩ := hres3 j hjlt
  have hpp : parentPath f = (r.nodeAt (r.resAt j).node).source_folder := by
    rw [← hjf]; exact hppx
  have hdesc : isDescendantOf f r.source_folder = true := by
    apply isDescendantOf_of_parent
    rw [hpp]
    exact hn7 _ hownlt
  refine ⟨hjlt, hjf, hownlt, hjmem, hpp, hdesc, ?_⟩
  by_cases hz : (r.resAt j).node = 0
  · rw [hz] at hpp ⊢
    rw [RootNode.node_from_path, if_pos (by rw [hpp, hn2])]
  · have hzpos : 0 < (r.resAt j).node := Nat.pos_of_ne_zero hz
    have hnr : parentPath f ≠ r.source_folder := by
      rw [hpp]; exact hn8 _ hownlt hzpos
    rw [RootNode.node_from_path, if_neg hnr, hpp]
    exact hm3 _ hownlt hzpos

/-- C1 counterexample: in the state reached by `add_resource("c/x")` from a
fresh root at `c`, the path `c/x` is in the resource table (as resource `0`,
the root node's resource list being `[0]`), yet calling `add_resource("c/x")`
again is *not* idempotent: it returns a *new* resource object `1` (not the
existing `0`), appends it as a second entry to the root node's resource list,
and replaces the resource-table entry. -/
theorem c1_counterexample :
    dupResState.resource_from_path ["c", "x"] = some 0 ∧
    (dupResState.nodeAt 0).resources = [0] ∧
    dupResState.add_resource ["c", "x"] = .ok (dupResState2, 1) ∧
    (1 : Nat) ≠ 0 ∧
    (dupResState2.nodeAt 0).resources = [0, 1] ∧
    dupResState2.resource_from_path ["c", "x"] = some 1 := by
  decide

/-- C1 amended: for a file path `f` already present in the resource table of
a well-formed state, `add_resource(f)` logs the duplicate but does **not**
return early: it succeeds with a *fresh* `Resource` object (heap index
`|resHeap|`, distinct from the existing entry `j`), appends it as a second
entry for `f` to the owning node's resource list (the existing resource `j`
stays in that list), and *replaces* the resource-table entry for `f` with the
new object. -/
theorem c1_amended_readd_appends_and_replaces (r : RootNode) (f : Path) (j : Nat)
    (hwf : WF r) (hf : r.resource_from_path f = some j) :
    ∃ r' : RootNode,
      r.add_resource f = .ok (r', r.resHeap.length) ∧
      r.resHeap.length ≠ j ∧
      (r'.resAt r.resHeap.length).source_file = f ∧
      (r'.resAt j).source_file = f ∧
      ((r'.nodeAt (r.resAt j).node).resources
         = (r.nodeAt (r.resAt j).node).resources ++ [r.resHeap.length]) ∧
      j ∈ (r'.nodeAt (r.resAt j).node).resources ∧
      r'.resource_from_path f = some r.resHeap.length := by
  obtain ⟨hjlt, hjf, hownlt, hjmem, hpp, hdesc, hnfp⟩ := dup_resource_facts hwf hf
  obtain ⟨r2, hacr⟩ :
      ∃ r2, r.add_child_resource (r.resAt j).node f = .ok (r2, r.resHeap.length) :=
    ⟨_, add_child_resource_ok (by rw [← hpp])⟩
  have hrun : r.add_resource f =
      .ok ({ r2 with resource_map := mapInsert r2.resource_map f r.resHeap.length },
           r.resHeap.length) := by
    unfold RootNode.add_resource
    rw [if_neg (by simp [hdesc])]
    simp only [hnfp, hacr]
  have hresAt := resAt_after_acr hacr
  have hnodeAt := nodeAt_after_acr hacr hownlt
  refine ⟨_, hrun, by omega, ?_, ?_, ?_, ?_, ?_⟩
  · show (r2.resAt r.resHeap.length).source_file = f
    rw [hresAt r.resHeap.length, if_pos rfl]
  · show (r2.resAt j).source_file = f
    rw [hresAt j, if_neg (by omega)]
    exact hjf
  · show (r2.nodeAt (r.resAt j).node).resources = _
    rw [hnodeAt _, if_pos rfl]
  · show j ∈ (r2.nodeAt (r.resAt j).node).resources
    rw [hnodeAt _, if_pos rfl]
    show j ∈ (r.nodeAt (r.resAt j).node).resources ++ [r.resHeap.length]
    exact List.mem_append.mpr (Or.inl hjmem)
  · show lookupPath (mapInsert r2.resource_map f r.resHeap.length) f = some r.resHeap.length
    exact lookupPath_mapInsert_self

/-- Witness for the amended C1: the concrete duplicate re-addition of `c/x`. -/
theorem c1_amended_readd_appends_and_replaces_witness :
    WF dupResState ∧
    dupResState.resource_from_path ["c", "x"] = some 0 ∧
    (∃ r' : RootNode,
      dupResState.add_resource ["c", "x"] = .ok (r', dupResState.resHeap.length) ∧
      dupResState.resHeap.length ≠ 0 ∧
      (r'.resAt dupResState.resHeap.length).source_file = ["c", "x"] ∧
      (r'.resAt 0).source_file = ["c", "x"] ∧
      ((r'.nodeAt (dupResState.resAt 0).node).resources
         = (dupResState.nodeAt (dupResState.resAt 0).node).resources
             ++ [dupResState.resHeap.length]) ∧
      0 ∈ (r'.nodeAt (dupResState.resAt 0).node).resources ∧
      r'.resource_from_path ["c", "x"] = some dupResState.resHeap.length) :=
  ⟨by decide, by decide,
   c1_amended_readd_appends_and_replaces dupResState ["c", "x"] 0 (by decide) (by decide)⟩

/-! ## The walk generator (C5) -/

/-- One step of fuel does not change `walkAux` once the fuel covers the
number of ids above the start (children have strictly larger ids, so the
subtree below `nid` is drawn from the ids in `(nid, |heap|)`). -/
theorem walkAux_step (r : RootNode) (hcm : ChildrenMono r) :
    ∀ fuel nid, nid < r.nodeHeap.length → r.nodeHeap.length - nid ≤ fuel →
      r.walkAux (fuel + 1) nid = r.walkAux fuel nid := by
  intro fuel
  induction fuel with
  | zero => intro nid h1 h2; omega
  | succ k ih =>
    intro nid h1 h2
    show nid :: ((r.nodeAt nid).child_nodes).flatMap (r.walkAux (k + 1))
       = nid :: ((r.nodeAt nid).child_nodes).flatMap (r.walkAux k)
    congr 1
    apply List.flatMap_congr
    intro c hc
    obtain ⟨hlt, hcn⟩ := hcm nid h1 c hc
    exact ih c hcn (by omega)

/-- `Node.walk` satisfies its generator equation: the node itself first, then
each child's full walk, in child-array order. -/
theorem walk_unfold (r : RootNode) (hcm : ChildrenMono r) (nid : Nat)
    (h : nid < r.nodeHeap.length) :
    r.walk nid = nid :: ((r.nodeAt nid).child_nodes).flatMap r.walk := by
  obtain ⟨m, hm⟩ : ∃ m, r.nodeHeap.length = m + 1 :=
    ⟨r.nodeHeap.length - 1, by omega⟩
  show r.walkAux r.nodeHeap.length nid = _
  rw [hm]
  show nid :: ((r.nodeAt nid).child_nodes).flatMap (r.walkAux m) = _
  congr 1
  apply List.flatMap_congr
  intro c hc
  obtain ⟨hlt, hcn⟩ := hcm nid h c hc
  show r.walkAux m c = r.walkAux r.nodeHeap.length c
  rw [hm]
  exact (walkAux_step r hcm m c hcn (by omega)).symm

/-- C5: `walk()` yields a finite depth-first pre-order sequence — the node
itself first, then the full subtree of each child in child-array order (the
generator equation, proved for every node of any heap whose children follow
their parent in allocation order, as all heaps built by the operations do).
The walk is a pure function of the state: it mutates nothing, and each call
is a fresh finite traversal (a `List`).  On the concrete root with children
`[A, B]` and `A`'s child `[A1]` it yields exactly `[root, A, A1, B]`. -/
theorem c5_walk_preorder :
    (∀ (r : RootNode) (nid : Nat), ChildrenMono r → nid < r.nodeHeap.length →
        r.walk nid = nid :: ((r.nodeAt nid).child_nodes).flatMap r.walk) ∧
    walkExampleState.walk 0 = [0, 1, 3, 2] ∧
    (walkExampleState.walk 0).map (fun i => (walkExampleState.nodeAt i).source_folder)
      = [["c"], ["c", "A"], ["c", "A", "A1"], ["c", "B"]] :=
  ⟨fun r nid hcm h => walk_unfold r hcm nid h, by decide, by decide⟩

/-- Witness for C5: the generator equation instantiated at the root of the
example tree. -/
theorem c5_walk_preorder_witness :
    ChildrenMono walkExampleState ∧ 0 < walkExampleState.nodeHeap.length ∧
    walkExampleState.walk 0 =
      0 :: ((walkExampleState.nodeAt 0).child_nodes).flatMap walkExampleState.walk :=
  ⟨by decide, by decide, c5_walk_preorder.1 walkExampleState 0 (by decide) (by decide)⟩

/-! ## Path and climb helpers -/

theorem parentPath_concat (l : Path) (x : String) : parentPath (l ++ [x]) = l :=
  List.dropLast_concat

theorem append_ne_self (R : Path) (x : String) (t : List String) : R ++ x :: t ≠ R := by
  intro hcon
  have hlen := congrArg List.length hcon
  simp only [List.length_append, List.length_cons] at hlen
  omega

theorem append_len_ne {R t₁ t₂ : Path} (h : t₁.length ≠ t₂.length) : R ++ t₁ ≠ R ++ t₂ := by
  intro hcon
  have hlen := congrArg List.length hcon
  simp only [List.length_append] at hlen
  omega

/-- One climb step that finds an existing node for the parent. -/
theorem climb_succ_found (r : RootNode) (p : Path) (fuel : Nat) {nid : Nat}
    (h : r.node_from_path (parentPath p) = some nid) :
    r.climb p (fuel + 1) = ([p], some nid) := by
  show (match r.node_from_path (parentPath p) with
        | some nid => (([p] : List Path), some nid)
        | none => (p :: (r.climb (parentPath p) fuel).1, (r.climb (parentPath p) fuel).2))
      = (([p] : List Path), some nid)
  rw [h]

/-- One climb step that records the folder and moves up. -/
theorem climb_succ_none (r : RootNode) (p : Path) (fuel : Nat)
    (h : r.node_from_path (parentPath p) = none) :
    r.climb p (fuel + 1) =
      (p :: (r.climb (parentPath p) fuel).1, (r.climb (parentPath p) fuel).2) := by
  show (match r.node_from_path (parentPath p) with
        | some nid => (([p] : List Path), some nid)
        | none => (p :: (r.climb (parentPath p) fuel).1, (r.climb (parentPath p) fuel).2))
      = _
  rw [h]

/-- C3: on a `RootNode` in which only the root is materialized, `add_node`
of a directory three levels below the root creates exactly the three missing
nodes — heap indices `1`, `2`, `3` for `R/a`, `R/a/b`, `R/a/b/c` — each
node's parent being the node of its path's direct parent directory
(`1 ← 0`, `2 ← 1`, `3 ← 2`), each linked as its parent's only child and
registered once in the node table (which holds exactly these three entries,
so there are no orphaned or duplicate nodes), and the returned node `3` is
the one for the original target path.  The conclusion exhibits the entire
resulting state. -/
theorem c3_deep_add_node_materializes_chain (R : Path) (a b c : String) :
    (RootNode.init R).add_node (R ++ [a, b, c]) =
      .ok ({ source_folder := R
             nodeHeap :=
               [{ source_folder := R, parent := none, child_nodes := [1], resources := [] },
                { source_folder := R ++ [a], parent := some 0,
                  child_nodes := [2], resources := [] },
                { source_folder := R ++ [a, b], parent := some 1,
                  child_nodes := [3], resources := [] },
                { source_folder := R ++ [a, b, c], parent := some 2,
                  child_nodes := [], resources := [] }]
             resHeap := []
             node_map := [(R ++ [a], 1), (R ++ [a, b], 2), (R ++ [a, b, c], 3)]
             resource_map := [] }, 3) := by
  have hne1 : R ++ [a] ≠ R := append_ne_self R a []
  have hne2 : R ++ [a, b] ≠ R := append_ne_self R a [b]
  have hne3 : R ++ [a, b, c] ≠ R := append_ne_self R a [b, c]
  have hnfpR : (RootNode.init R).node_from_path R = some 0 := by
    rw [RootNode.node_from_path,
        if_pos (show R = (RootNode.init R).source_folder from rfl)]
  have h0 : ∀ q : Path, q ≠ R → (RootNode.init R).node_from_path q = none := by
    intro q hq
    rw [RootNode.node_from_path,
        if_neg (show ¬ q = (RootNode.init R).source_folder from hq)]
    rfl
  have pp1 : parentPath (R ++ [a]) = R := parentPath_concat R a
  have pp2 : parentPath (R ++ [a, b]) = R ++ [a] := by
    have hx : R ++ [a, b] = (R ++ [a]) ++ [b] := by simp
    rw [hx, parentPath_concat]
  have pp3 : parentPath (R ++ [a, b, c]) = R ++ [a, b] := by
    have hx : R ++ [a, b, c] = (R ++ [a, b]) ++ [c] := by simp
    rw [hx, parentPath_concat]
  have hdesc : isDescendantOf (R ++ [a, b, c]) R = true := by
    unfold isDescendantOf
    rw [List.isPrefixOf_iff_prefix]
    exact List.prefix_append _ _
  have hc1 : (RootNode.init R).climb (R ++ [a]) (R.length + 1) = ([R ++ [a]], some 0) :=
    climb_succ_found _ _ _ (by rw [pp1]; exact hnfpR)
  have hc2 : (RootNode.init R).climb (R ++ [a, b]) (R.length + 2) =
      ([R ++ [a, b], R ++ [a]], some 0) := by
    rw [show R.length + 2 = (R.length + 1) + 1 from rfl,
        climb_succ_none _ _ _ (by rw [pp2]; exact h0 _ hne1), pp2, hc1]
  have hc3 : (RootNode.init R).climb (R ++ [a, b, c]) (R.length + 3) =
      ([R ++ [a, b, c], R ++ [a, b], R ++ [a]], some 0) := by
    rw [show R.length + 3 = (R.length + 2) + 1 from rfl,
        climb_succ_none _ _ _ (by rw [pp3]; exact h0 _ hne2), pp3, hc2]
  have hm1 : (RootNode.init R).add_child_node 0 (R ++ [a]) =
      .ok ({ source_folder := R
             nodeHeap :=
               [{ source_folder := R, parent := none, child_nodes := [1], resources := [] },
                { source_folder := R ++ [a], parent := some 0,
                  child_nodes := [], resources := [] }]
             resHeap := [], node_map := [], resource_map := [] }, 1) :=
    add_child_node_ok (by rw [pp1]; rfl)
  have hm2 :
      RootNode.add_child_node
        { source_folder := R
          nodeHeap :=
            [{ source_folder := R, parent := none, child_nodes := [1], resources := [] },
             { source_folder := R ++ [a], parent := some 0,
               child_nodes := [], resources := [] }]
          resHeap := [], node_map := [(R ++ [a], 1)], resource_map := [] }
        1 (R ++ [a, b]) =
      .ok ({ source_folder := R
             nodeHeap :=
               [{ source_folder := R, parent := none, child_nodes := [1], resources := [] },
                { source_folder := R ++ [a], parent := some 0,
                  child_nodes := [2], resources := [] },
                { source_folder := R ++ [a, b], parent := some 1,
                  child_nodes := [], resources := [] }]
             resHeap := [], node_map := [(R ++ [a], 1)], resource_map := [] }, 2) :=
    add_child_node_ok (by rw [pp2]; rfl)
  have hm3 :
      RootNode.add_child_node
        { source_folder := R
          nodeHeap :=
            [{ source_folder := R, parent := none, child_nodes := [1], resources := [] },
             { source_folder := R ++ [a], parent := some 0,
               child_nodes := [2], resources := [] },
             { source_folder := R ++ [a, b], parent := some 1,
               child_nodes := [], resources := [] }]
          resHeap := [], node_map := [(R ++ [a], 1), (R ++ [a, b], 2)], resource_map := [] }
        2 (R ++ [a, b, c]) =
      .ok ({ source_folder := R
             nodeHeap :=
               [{ source_folder := R, parent := none, child_nodes := [1], resources := [] },
                { source_folder := R ++ [a], parent := some 0,
                  child_nodes := [2], resources := [] },
                { source_folder := R ++ [a, b], parent := some 1,
                  child_nodes := [3], resources := [] },
                { source_folder := R ++ [a, b, c], parent := some 2,
                  child_nodes := [], resources := [] }]
             resHeap := []
             node_map := [(R ++ [a], 1), (R ++ [a, b], 2)]
             resource_map := [] }, 3) :=
    add_child_node_ok (by rw [pp3]; rfl)
  have hmap2 : mapInsert [(R ++ [a], 1)] (R ++ [a, b]) 2 =
      [(R ++ [a], 1), (R ++ [a, b], 2)] :=
    mapInsert_of_fresh (by
      intro e he
      rw [List.mem_singleton] at he
      subst he
      exact append_len_ne (by simp))
  have hmap3 : mapInsert [(R ++ [a], 1), (R ++ [a, b], 2)] (R ++ [a, b, c]) 3 =
      [(R ++ [a], 1), (R ++ [a, b], 2), (R ++ [a, b, c], 3)] :=
    mapInsert_of_fresh (by
      intro e he
      rw [List.mem_cons, List.mem_singleton] at he
      rcases he with he | he <;> subst he <;> exact append_len_ne (by simp))
  unfold RootNode.add_node
  simp only [h0 _ hne3]
  rw [if_neg (show ¬¬(isDescendantOf (R ++ [a, b, c])
        (RootNode.init R).source_folder = true) from not_not_intro hdesc)]
  rw [show (R ++ [a, b, c]).length = R.length + 3 by simp]
  simp only [hc3]
  show RootNode.materialize (RootNode.init R) 0
      [R ++ [a], R ++ [a, b], R ++ [a, b, c]] = _
  unfold RootNode.materialize
  simp only [hm1]
  show RootNode.materialize
      { source_folder := R
        nodeHeap :=
          [{ source_folder := R, parent := none, child_nodes := [1], resources := [] },
           { source_folder := R ++ [a], parent := some 0,
             child_nodes := [], resources := [] }]
        resHeap := [], node_map := [(R ++ [a], 1)], resource_map := [] }
      1 [R ++ [a, b], R ++ [a, b, c]] = _
  unfold RootNode.materialize
  simp only [hm2]
  rw [show RootNode.materialize
        { source_folder := R
          nodeHeap :=
            [{ source_folder := R, parent := none, child_nodes := [1], resources := [] },
             { source_folder := R ++ [a], parent := some 0,
               child_nodes := [2], resources := [] },
             { source_folder := R ++ [a, b], parent := some 1,
               child_nodes := [], resources := [] }]
          resHeap := []
          node_map := mapInsert [(R ++ [a], 1)] (R ++ [a, b]) 2
          resource_map := [] }
        2 [R ++ [a, b, c]] =
      RootNode.materialize
        { source_folder := R
          nodeHeap :=
            [{ source_folder := R, parent := none, child_nodes := [1], resources := [] },
             { source_folder := R ++ [a], parent := some 0,
               child_nodes := [2], resources := [] },
             { source_folder := R ++ [a, b], parent := some 1,
               child_nodes := [], resources := [] }]
          resHeap := []
          node_map := [(R ++ [a], 1), (R ++ [a, b], 2)]
          resource_map := [] }
        2 [R ++ [a, b, c]]
    by rw [hmap2]]
  unfold RootNode.materialize
  simp only [hm3]
  rw [hmap3]
  rfl

/-- Witness for C8: from a fresh root at `c`, the folder `d` and the file
`d/x` are both rejected as out of hierarchy. -/
theorem c8_out_of_hierarchy_witness :
    (RootNode.init ["c"]).node_from_path ["d"] = none ∧
    isDescendantOf ["d"] (RootNode.init ["c"]).source_folder = false ∧
    isDescendantOf ["d", "x"] (RootNode.init ["c"]).source_folder = false ∧
    ((RootNode.init ["c"]).add_node ["d"] =
      .error ⟨"The given folder [" ++ pathStr ["d"] ++ "] does not belong to this hierarchy ["
              ++ pathStr (RootNode.init ["c"]).source_folder ++ "]"⟩ ∧
     (RootNode.init ["c"]).add_resource ["d", "x"] =
      .error ⟨"The given file [" ++ pathStr ["d", "x"] ++ "] does not reside in this hierarchy ["
              ++ pathStr (RootNode.init ["c"]).source_folder ++ "]"⟩) :=
  ⟨by decide, by decide, by decide,
   c8_out_of_hierarchy (RootNode.init ["c"]) ["d"] ["d", "x"]
     (by decide) (by decide) (by decide)⟩

/-! ## Ancestor chains (towards the tables-and-tree invariant, C4) -/

/-- Every non-root live node has a live parent strictly below it in
allocation order, whose child list contains it. -/
theorem parent_facts {r : RootNode} (hn : nodesOK r) :
    ∀ c, 0 < c → c < r.nodeHeap.length →
      ∃ pc, (r.nodeAt c).parent = some pc ∧ pc < c ∧ pc < r.nodeHeap.length ∧
        c ∈ (r.nodeAt pc).child_nodes := by
  obtain ⟨hn1, hn2, hn3, hn4, hn5, hn6, hn7, hn8⟩ := hn
  intro c hc0 hcn
  obtain ⟨hp, hmem⟩ := hn6 c hcn hc0
  have hpcn : (r.nodeAt c).parent.getD 0 < r.nodeHeap.length := by
    by_contra hge
    rw [nodeAt_ge (Nat.le_of_not_lt hge)] at hmem
    exact absurd hmem (by simp [dNode])
  obtain ⟨hlt, -, -⟩ := hn4 _ hpcn c hmem
  exact ⟨(r.nodeAt c).parent.getD 0, hp, hlt, hpcn, hmem⟩

theorem ancsA_zero {r : RootNode} (hn : nodesOK r) : ∀ f, ancsA r f 0 = [0] := by
  intro f
  cases f with
  | zero => rfl
  | succ k =>
    show 0 :: (match (r.nodeAt 0).parent with
               | none => [] | some p => ancsA r k p) = [0]
    rw [hn.2.2.1]

/-- `ancsA` does not depend on the fuel once it is at least the start id. -/
theorem ancsA_stable {r : RootNode} (hn : nodesOK r) (j : Nat) :
    ∀ f₁ f₂, j ≤ f₁ → j ≤ f₂ → ancsA r f₁ j = ancsA r f₂ j := by
  induction j using Nat.strong_induction_on with
  | _ j ih =>
    intro f₁ f₂ h₁ h₂
    by_cases hj0 : j = 0
    · subst hj0
      rw [ancsA_zero hn, ancsA_zero hn]
    · obtain ⟨a, rfl⟩ : ∃ a, f₁ = a + 1 := ⟨f₁ - 1, by omega⟩
      obtain ⟨b, rfl⟩ : ∃ b, f₂ = b + 1 := ⟨f₂ - 1, by omega⟩
      show j :: (match (r.nodeAt j).parent with
                 | none => [] | some p => ancsA r a p)
         = j :: (match (r.nodeAt j).parent with
                 | none => [] | some p => ancsA r b p)
      by_cases hjn : j < r.nodeHeap.length
      · obtain ⟨pc, hp, hplt, -, -⟩ := parent_facts hn j (Nat.pos_of_ne_zero hj0) hjn
        rw [hp]
        show j :: ancsA r a pc = j :: ancsA r b pc
        rw [ih pc hplt a b (by omega) (by omega)]
      · rw [nodeAt_ge (Nat.le_of_not_lt hjn)]
        rfl

theorem ancs_ge {r : RootNode} (h : r.nodeHeap.length ≤ j) : ancs r j = [j] := by
  cases hj : j with
  | zero => rfl
  | succ k =>
    show (k + 1) :: (match (r.nodeAt (k + 1)).parent with
                     | none => [] | some p => ancsA r k p) = [k + 1]
    rw [nodeAt_ge (by omega)]
    rfl

theorem ancs_cons {r : RootNode} (hn : nodesOK r) {c pc : Nat} (hc0 : 0 < c)
    (hp : (r.nodeAt c).parent = some pc) (hplt : pc < c) :
    ancs r c = c :: ancs r pc := by
  obtain ⟨k, rfl⟩ : ∃ k, c = k + 1 := ⟨c - 1, by omega⟩
  show (k + 1) :: (match (r.nodeAt (k + 1)).parent with
                   | none => [] | some p => ancsA r k p)
     = (k + 1) :: ancs r pc
  rw [hp]
  show (k + 1) :: ancsA r k pc = (k + 1) :: ancsA r pc pc
  rw [ancsA_stable hn pc k pc (by omega) (by omega)]

theorem ancs_head (r : RootNode) (j : Nat) : ∃ t, ancs r j = j :: t := by
  cases j with
  | zero => exact ⟨[], rfl⟩
  | succ k => exact ⟨_, rfl⟩

theorem self_mem_ancs (r : RootNode) (j : Nat) : j ∈ ancs r j := by
  obtain ⟨t, ht⟩ := ancs_head r j
  rw [ht]
  exact List.mem_cons_self j t

/-- Members of an ancestor chain never exceed its start. -/
theorem ancs_le {r : RootNode} (hn : nodesOK r) :
    ∀ j, ∀ x ∈ ancs r j, x ≤ j := by
  intro j
  induction j using Nat.strong_induction_on with
  | _ j ih =>
    intro x hx
    by_cases hj0 : j = 0
    · subst hj0
      rw [show ancs r 0 = [0] from rfl] at hx
      simp at hx
      omega
    · by_cases hjn : j < r.nodeHeap.length
      · obtain ⟨pc, hp, hplt, -, -⟩ := parent_facts hn j (Nat.pos_of_ne_zero hj0) hjn
        rw [ancs_cons hn (Nat.pos_of_ne_zero hj0) hp hplt] at hx
        rcases List.mem_cons.mp hx with h | h
        · omega
        · have := ih pc hplt x h
          omega
      · rw [ancs_ge (Nat.le_of_not_lt hjn)] at hx
        simp at hx
        omega

/-- The ancestor chain of any chain member is a suffix of the whole chain. -/
theorem ancs_suffix {r : RootNode} (hn : nodesOK r) :
    ∀ j, ∀ b ∈ ancs r j, ancs r b <:+ ancs r j := by
  intro j
  induction j using Nat.strong_induction_on with
  | _ j ih =>
    intro b hb
    by_cases hj0 : j = 0
    · subst hj0
      rw [show ancs r 0 = [0] from rfl] at hb
      simp at hb
      subst hb
      exact List.suffix_refl _
    · by_cases hjn : j < r.nodeHeap.length
      · obtain ⟨pc, hp, hplt, -, -⟩ := parent_facts hn j (Nat.pos_of_ne_zero hj0) hjn
        have hc := ancs_cons hn (Nat.pos_of_ne_zero hj0) hp hplt
        rw [hc] at hb
        rcases List.mem_cons.mp hb with h | h
        · subst h
          exact List.suffix_refl _
        · have := ih pc hplt b h
          rw [hc]
          exact this.trans (List.suffix_cons j (ancs r pc))
      · rw [ancs_ge (Nat.le_of_not_lt hjn)] at hb
        simp at hb
        subst hb
        exact List.suffix_refl _

/-- The root (id 0) is on every live node's ancestor chain. -/
theorem zero_mem_ancs {r : RootNode} (hn : nodesOK r) :
    ∀ j, j < r.nodeHeap.length → (0 : Nat) ∈ ancs r j := by
  intro j
  induction j using Nat.strong_induction_on with
  | _ j ih =>
    intro hjn
    by_cases hj0 : j = 0
    · subst hj0
      exact self_mem_ancs r 0
    · obtain ⟨pc, hp, hplt, hpcn, -⟩ := parent_facts hn j (Nat.pos_of_ne_zero hj0) hjn
      rw [ancs_cons hn (Nat.pos_of_ne_zero hj0) hp hplt]
      exact List.mem_cons_of_mem _ (ih pc hplt hpcn)

/-- Two distinct children of the same node cannot both lie on one ancestor
chain: the chain is the linear parent path of its start. -/
theorem ancs_child_unique {r : RootNode} (hn : nodesOK r) {i c c' j : Nat}
    (hc0 : 0 < c) (hcn : c < r.nodeHeap.length)
    (hc0' : 0 < c') (hcn' : c' < r.nodeHeap.length)
    (hp : (r.nodeAt c).parent = some i) (hp' : (r.nodeAt c').parent = some i)
    (hjc : c ∈ ancs r j) (hjc' : c' ∈ ancs r j) : c = c' := by
  by_contra hne
  obtain ⟨pc, hpe, hplt, -, -⟩ := parent_facts hn c hc0 hcn
  obtain ⟨pc', hpe', hplt', -, -⟩ := parent_facts hn c' hc0' hcn'
  rw [hp] at hpe
  rw [hp'] at hpe'
  injection hpe with hpe
  injection hpe' with hpe'
  subst hpe
  subst hpe'
  have hs := ancs_suffix hn j c hjc
  have hs' := ancs_suffix hn j c' hjc'
  have haux : ∀ x y : Nat, 0 < x → x < r.nodeHeap.length →
      (r.nodeAt x).parent = some i → i < x →
      (r.nodeAt y).parent = some i → i < y →
      x ≠ y → ancs r x <:+ ancs r y → False := by
    intro x y hx0 hxn hpx hix hpy hiy hxy hsuf
    have hcy := ancs_cons hn (by omega) hpy hiy
    rw [hcy] at hsuf
    rcases List.suffix_cons_iff.mp hsuf with hcase | hcase
    · obtain ⟨tx, htx⟩ := ancs_head r x
      rw [htx] at hcase
      injection hcase with h1 _
      exact hxy h1
    · have hxmem : x ∈ ancs r i := hcase.subset (self_mem_ancs r x)
      have := ancs_le hn i x hxmem
      omega
  rcases List.suffix_or_suffix_of_suffix hs hs' with hcase | hcase
  · exact haux c c' hc0 hcn hp hplt hp' hplt' hne hcase
  · exact haux c' c hc0' hcn' hp' hplt' hp hplt (Ne.symm hne) hcase

/-! ## Walk enumeration under `nodesOK` -/

/-- `nodesOK` implies the child monotonicity the walk lemmas need. -/
theorem childrenMono_of_nodesOK {r : RootNode} (hn : nodesOK r) : ChildrenMono r := by
  intro i hi c hc
  obtain ⟨h1, h2, -⟩ := hn.2.2.2.1 i hi c hc
  exact ⟨h1, h2⟩

/-- Everything the walk reaches is live, and the start is on its chain. -/
theorem walk_mem_bounds {r : RootNode} (hn : nodesOK r) :
    ∀ k nid, nid < r.nodeHeap.length → r.nodeHeap.length - nid ≤ k →
      ∀ j ∈ r.walk nid, nid ∈ ancs r j ∧ j < r.nodeHeap.length := by
  have hcm := childrenMono_of_nodesOK hn
  intro k
  induction k with
  | zero => intro nid h1 h2; omega
  | succ k ih =>
    intro nid h1 h2 j hj
    rw [walk_unfold r hcm nid h1] at hj
    rcases List.mem_cons.mp hj with h | h
    · subst h
      exact ⟨self_mem_ancs r j, h1⟩
    · rw [List.mem_flatMap] at h
      obtain ⟨c, hc, hjc⟩ := h
      obtain ⟨hlt, hcn, hpar⟩ := hn.2.2.2.1 nid h1 c hc
      obtain ⟨hanc, hjn⟩ := ih c hcn (by omega) j hjc
      refine ⟨?_, hjn⟩
      apply (ancs_suffix hn j c hanc).subset
      rw [ancs_cons hn (by omega) hpar hlt]
      exact List.mem_cons_of_mem _ (self_mem_ancs r nid)

/-- The walk of a walked node is contained in the walk of the start. -/
theorem walk_subset_trans {r : RootNode} (hn : nodesOK r) :
    ∀ k x, x < r.nodeHeap.length → r.nodeHeap.length - x ≤ k →
      ∀ y ∈ r.walk x, ∀ z ∈ r.walk y, z ∈ r.walk x := by
  have hcm := childrenMono_of_nodesOK hn
  intro k
  induction k with
  | zero => intro x h1 h2; omega
  | succ k ih =>
    intro x h1 h2 y hy z hz
    by_cases hxy : y = x
    · subst hxy; exact hz
    · rw [walk_unfold r hcm x h1] at hy
      rcases List.mem_cons.mp hy with h | h
      · exact absurd h hxy
      · rw [List.mem_flatMap] at h
        obtain ⟨c, hc, hyc⟩ := h
        obtain ⟨hlt, hcn, -⟩ := hn.2.2.2.1 x h1 c hc
        have hzc := ih c hcn (by omega) y hyc z hz
        rw [walk_unfold r hcm x h1]
        exact List.mem_cons_of_mem _ (List.mem_flatMap.mpr ⟨c, hc, hzc⟩)

/-- Conversely, a live node is reached from every entry of its chain. -/
theorem walk_mem_of_ancs {r : RootNode} (hn : nodesOK r) :
    ∀ j, j < r.nodeHeap.length → ∀ nid, nid ∈ ancs r j → j ∈ r.walk nid := by
  have hcm := childrenMono_of_nodesOK hn
  intro j
  induction j using Nat.strong_induction_on with
  | _ j ih =>
    intro hjn nid hmem0
    by_cases hjn0 : nid = j
    · subst hjn0
      rw [walk_unfold r hcm nid hjn]
      exact List.mem_cons_self _ _
    · have hnidle : nid ≤ j := ancs_le hn j nid hmem0
      have hnidn : nid < r.nodeHeap.length := by omega
      by_cases hj0 : j = 0
      · subst hj0
        rw [show ancs r 0 = [0] from rfl] at hmem0
        simp at hmem0
        exact absurd hmem0 hjn0
      · obtain ⟨pc, hp, hplt, hpcn, hcmem⟩ := parent_facts hn j (Nat.pos_of_ne_zero hj0) hjn
        rw [ancs_cons hn (Nat.pos_of_ne_zero hj0) hp hplt] at hmem0
        rcases List.mem_cons.mp hmem0 with h | h
        · exact absurd h hjn0
        · have hpw : pc ∈ r.walk nid := ih pc hplt hpcn nid h
          have hjw : j ∈ r.walk pc := by
            rw [walk_unfold r hcm pc hpcn]
            refine List.mem_cons_of_mem _ (List.mem_flatMap.mpr ⟨j, hcmem, ?_⟩)
            rw [walk_unfold r hcm j hjn]
            exact List.mem_cons_self _ _
          exact walk_subset_trans hn r.nodeHeap.length nid hnidn (by omega) pc hpw j hjw

/-- The walk visits no node twice. -/
theorem walk_nodup {r : RootNode} (hn : nodesOK r) :
    ∀ k nid, nid < r.nodeHeap.length → r.nodeHeap.length - nid ≤ k →
      (r.walk nid).Nodup := by
  have hcm := childrenMono_of_nodesOK hn
  intro k
  induction k with
  | zero => intro nid h1 h2; omega
  | succ k ih =>
    intro nid h1 h2
    rw [walk_unfold r hcm nid h1, List.nodup_cons]
    constructor
    · intro hmem
      rw [List.mem_flatMap] at hmem
      obtain ⟨c, hc, hjc⟩ := hmem
      obtain ⟨hlt, hcn, -⟩ := hn.2.2.2.1 nid h1 c hc
      obtain ⟨hanc, -⟩ := walk_mem_bounds hn r.nodeHeap.length c hcn (by omega) nid hjc
      have := ancs_le hn nid c hanc
      omega
    · rw [List.nodup_flatMap]
      refine ⟨fun c hc => ?_, ?_⟩
      · obtain ⟨hlt, hcn, -⟩ := hn.2.2.2.1 nid h1 c hc
        exact ih c hcn (by omega)
      · apply List.Pairwise.imp_of_mem ?_ (hn.2.2.2.2.1 nid h1)
        intro c c' hc hc' hne
        intro j hjc hjc'
        obtain ⟨hlt, hcn, hpar⟩ := hn.2.2.2.1 nid h1 c hc
        obtain ⟨hlt', hcn', hpar'⟩ := hn.2.2.2.1 nid h1 c' hc'
        obtain ⟨hanc, -⟩ := walk_mem_bounds hn r.nodeHeap.length c hcn (by omega) j hjc
        obtain ⟨hanc', -⟩ := walk_mem_bounds hn r.nodeHeap.length c' hcn' (by omega) j hjc'
        exact hne (ancs_child_unique hn (by omega) hcn (by omega) hcn' hpar hpar' hanc hanc')

/-- The walk from the root enumerates exactly the allocated nodes, once each. -/
theorem walk_zero_perm {r : RootNode} (hn : nodesOK r) :
    (r.walk 0).Perm (List.range r.nodeHeap.length) := by
  have hnd := walk_nodup hn r.nodeHeap.length 0 hn.1 (by omega)
  rw [List.perm_ext_iff_of_nodup hnd (List.nodup_range _)]
  intro j
  rw [List.mem_range]
  constructor
  · intro hj
    exact (walk_mem_bounds hn r.nodeHeap.length 0 hn.1 (by omega) j hj).2
  · intro hj
    exact walk_mem_of_ancs hn j hj 0 (zero_mem_ancs hn j hj)

/-- `walk_resources` from the root enumerates exactly the allocated
resources, once each. -/
theorem walk_resources_zero_perm {r : RootNode} (hn : nodesOK r)
    (hres : resourcesOK r) :
    (r.walk_resources 0).Perm (List.range r.resHeap.length) ∧
    (∀ rid, rid ∈ r.walk_resources 0 ↔ rid < r.resHeap.length) := by
  obtain ⟨hres1, hres2, hres3, -, -⟩ := hres
  have hmem : ∀ rid, rid ∈ r.walk_resources 0 ↔ rid < r.resHeap.length := by
    intro rid
    unfold RootNode.walk_resources
    rw [List.mem_flatMap]
    constructor
    · rintro ⟨i, hiw, hir⟩
      have hin := (walk_mem_bounds hn r.nodeHeap.length 0 hn.1 (by omega) i hiw).2
      exact (hres1 i hin rid hir).1
    · intro hrid
      obtain ⟨hown, hmem', -⟩ := hres3 rid hrid
      exact ⟨(r.resAt rid).node,
             walk_mem_of_ancs hn _ hown 0 (zero_mem_ancs hn _ hown), hmem'⟩
  refine ⟨?_, hmem⟩
  have hnd : (r.walk_resources 0).Nodup := by
    unfold RootNode.walk_resources
    rw [List.nodup_flatMap]
    refine ⟨fun i hiw => ?_, ?_⟩
    · exact hres2 i (walk_mem_bounds hn r.nodeHeap.length 0 hn.1 (by omega) i hiw).2
    · apply List.Pairwise.imp_of_mem ?_ (walk_nodup hn r.nodeHeap.length 0 hn.1 (by omega))
      intro i i' hi hi' hne rid hrid hrid'
      have hin := (walk_mem_bounds hn r.nodeHeap.length 0 hn.1 (by omega) i hi).2
      have hin' := (walk_mem_bounds hn r.nodeHeap.length 0 hn.1 (by omega) i' hi').2
      have h1 := (hres1 i hin rid hrid).2
      have h2 := (hres1 i' hin' rid hrid').2
      exact hne (by rw [← h1, ← h2])
  rw [List.perm_ext_iff_of_nodup hnd (List.nodup_range _)]
  intro rid
  rw [List.mem_range]
  exact hmem rid

/-- In an association list with distinct keys whose key is a function of the
value, a present value is counted exactly once. -/
theorem countP_val_eq_one {m : List (Path × Nat)} {v : Nat} {p : Path}
    (hk : (m.map Prod.fst).Nodup) (hmem : (p, v) ∈ m)
    (hdet : ∀ e ∈ m, e.2 = v → e.1 = p) :
    m.countP (fun e => e.2 = v) = 1 := by
  induction m with
  | nil => simp at hmem
  | cons e t ih =>
    rw [List.map_cons, List.nodup_cons] at hk
    by_cases hev : e.2 = v
    · rw [List.countP_cons_of_pos _ _ (by simpa using hev)]
      have he1 : e.1 = p := hdet e (by simp) hev
      have ht0 : t.countP (fun e => e.2 = v) = 0 := by
        rw [List.countP_eq_zero]
        intro e' he' hev'
        apply hk.1
        rw [he1]
        have he1' : e'.1 = p := hdet e' (by simp [he']) (by simpa using hev')
        rw [← he1']
        exact List.mem_map_of_mem Prod.fst he'
      omega
    · rw [List.countP_cons_of_neg _ _ (by simpa using hev)]
      apply ih hk.2 ?_ (fun e' he' h => hdet e' (by simp [he']) h)
      rcases List.mem_cons.mp hmem with h | h
      · rw [← h] at hev
        simp at hev
      · exact h

/-! ## Preservation of well-formedness by the operations -/

/-- `node_from_path` only returns live nodes carrying the queried path. -/
theorem nfp_sound {r : RootNode} (hwf : WF r) {q : Path} {j : Nat}
    (h : r.node_from_path q = some j) :
    j < r.nodeHeap.length ∧ (r.nodeAt j).source_folder = q := by
  unfold RootNode.node_from_path at h
  by_cases hq : q = r.source_folder
  · rw [if_pos hq] at h
    injection h with h
    subst h
    exact ⟨hwf.1.1, by rw [hwf.1.2.1, hq]⟩
  · rw [if_neg hq] at h
    have hmem := lookupPath_mem h
    obtain ⟨-, hlt, hpath, -⟩ := hwf.2.1.1 _ hmem
    exact ⟨hlt, hpath⟩

/-- One materialization step — `add_child_node` on a live frontier with a
fresh folder strictly inside the hierarchy, followed by the table insertion —
preserves well-formedness and leaves the resource side untouched. -/
theorem WF_after_acn_insert {r r1 : RootNode} {fr : Nat} {h1 : Path}
    (hwf : WF r) (hfr : fr < r.nodeHeap.length)
    (hacn : r.add_child_node fr h1 = .ok (r1, r.nodeHeap.length))
    (hlook : lookupPath r.node_map h1 = none)
    (hroot : h1 ≠ r.source_folder)
    (hdesc : isDescendantOf h1 r.source_folder = true)
    (r2 : RootNode)
    (hr2 : r2 = { r1 with node_map := mapInsert r1.node_map h1 r.nodeHeap.length }) :
    WF r2 ∧ r2.source_folder = r.source_folder ∧ r2.resHeap = r.resHeap ∧
    r2.resource_map = r.resource_map ∧
    r2.nodeHeap.length = r.nodeHeap.length + 1 ∧
    r2.node_map = r.node_map ++ [(h1, r.nodeHeap.length)] ∧
    (r2.nodeAt r.nodeHeap.length).source_folder = h1 := by
  obtain ⟨hnodes, hmap, hres⟩ := hwf
  obtain ⟨hn1, hn2, hn3, hn4, hn5, hn6, hn7, hn8⟩ := hnodes
  obtain ⟨hm1, hm2, hm3⟩ := hmap
  obtain ⟨hres1, hres2, hres3, hres4, hres5⟩ := hres
  have hat := nodeAt_after_acn hacn hfr
  obtain ⟨-, hlen1, hsfeq, hrheq, hmape, hrmape⟩ := misc_after_acn hacn
  have hfresh : ∀ e ∈ r.node_map, e.1 ≠ h1 := lookupPath_eq_none.mp hlook
  subst hr2
  set N := r.nodeHeap.length with hN
  have hN0 : 0 < N := by omega
  set r2 : RootNode := { r1 with node_map := mapInsert r1.node_map h1 N } with hr2
  have hat2 : ∀ j, r2.nodeAt j = r1.nodeAt j := fun j => rfl
  have hsf : ∀ j, j ≠ N → (r2.nodeAt j).source_folder = (r.nodeAt j).source_folder := by
    intro j hj
    rw [hat2 j, hat j]
    by_cases hjf : j = fr
    · subst hjf
      rw [if_pos rfl]
    · rw [if_neg hjf, if_neg hj]
  have hpar : ∀ j, j ≠ N → (r2.nodeAt j).parent = (r.nodeAt j).parent := by
    intro j hj
    rw [hat2 j, hat j]
    by_cases hjf : j = fr
    · subst hjf
      rw [if_pos rfl]
    · rw [if_neg hjf, if_neg hj]
  have hresf : ∀ j, j ≠ N → (r2.nodeAt j).resources = (r.nodeAt j).resources := by
    intro j hj
    rw [hat2 j, hat j]
    by_cases hjf : j = fr
    · subst hjf
      rw [if_pos rfl]
    · rw [if_neg hjf, if_neg hj]
  have hch : ∀ j, j ≠ fr → j ≠ N → (r2.nodeAt j).child_nodes = (r.nodeAt j).child_nodes := by
    intro j hjf hj
    rw [hat2 j, hat j, if_neg hjf, if_neg hj]
  have hchfr : (r2.nodeAt fr).child_nodes = (r.nodeAt fr).child_nodes ++ [N] := by
    rw [hat2 fr, hat fr, if_pos rfl]
  have hfrN : fr ≠ N := by omega
  have hsfN : (r2.nodeAt N).source_folder = h1 := by
    rw [hat2 N, hat N, if_neg (Ne.symm hfrN), if_pos rfl]
  have hparN : (r2.nodeAt N).parent = some fr := by
    rw [hat2 N, hat N, if_neg (Ne.symm hfrN), if_pos rfl]
  have hchN : (r2.nodeAt N).child_nodes = [] := by
    rw [hat2 N, hat N, if_neg (Ne.symm hfrN), if_pos rfl]
  have hresN : (r2.nodeAt N).resources = [] := by
    rw [hat2 N, hat N, if_neg (Ne.symm hfrN), if_pos rfl]
  have hlen : r2.nodeHeap.length = N + 1 := hlen1
  have hsf2 : r2.source_folder = r.source_folder := hsfeq
  have hrh : r2.resHeap = r.resHeap := hrheq
  have hrm : r2.resource_map = r.resource_map := hrmape
  have hra : ∀ j, r2.resAt j = r.resAt j := by
    intro j
    show r2.resHeap.getD j dRes = r.resHeap.getD j dRes
    rw [hrh]
  have hm2map : r2.node_map = r.node_map ++ [(h1, N)] := by
    show mapInsert r1.node_map h1 N = _
    rw [hmape]
    exact mapInsert_of_fresh hfresh
  refine ⟨⟨⟨?_, ?_, ?_, ?_, ?_, ?_, ?_, ?_⟩, ⟨?_, ?_, ?_⟩, ⟨?_, ?_, ?_, ?_, ?_⟩⟩,
          hsf2, hrh, hrm, hlen, hm2map, hsfN⟩
  · rw [hlen]; omega
  · rw [hsf 0 (by omega), hsf2]
    exact hn2
  · rw [hpar 0 (by omega)]
    exact hn3
  · intro i hi c hc
    rw [hlen] at hi
    by_cases hiN : i = N
    · subst hiN
      rw [hchN] at hc
      simp at hc
    · have hiN' : i < N := by omega
      by_cases hif : i = fr
      · subst hif
        rw [hchfr] at hc
        rcases List.mem_append.mp hc with h | h
        · obtain ⟨h1', h2', h3'⟩ := hn4 i hiN' c h
          refine ⟨h1', by omega, ?_⟩
          rw [hpar c (by omega)]
          exact h3'
        · rw [List.mem_singleton] at h
          subst h
          exact ⟨by omega, by omega, hparN⟩
      · rw [hch i hif hiN] at hc
        obtain ⟨h1', h2', h3'⟩ := hn4 i hiN' c hc
        refine ⟨h1', by omega, ?_⟩
        rw [hpar c (by omega)]
        exact h3'
  · intro i hi
    rw [hlen] at hi
    by_cases hiN : i = N
    · subst hiN
      rw [hchN]
      exact List.nodup_nil
    · have hiN' : i < N := by omega
      by_cases hif : i = fr
      · subst hif
        rw [hchfr]
        rw [List.nodup_append]
        refine ⟨hn5 i hiN', List.nodup_singleton _, ?_⟩
        intro c hcmem hcN
        rw [List.mem_singleton] at hcN
        obtain ⟨-, h2', -⟩ := hn4 i hiN' c hcmem
        omega
      · rw [hch i hif hiN]
        exact hn5 i hiN'
  · intro c hc hc0
    rw [hlen] at hc
    by_cases hcN : c = N
    · subst hcN
      rw [hparN]
      refine ⟨rfl, ?_⟩
      show N ∈ (r2.nodeAt fr).child_nodes
      rw [hchfr]
      exact List.mem_append.mpr (Or.inr (by simp))
    · have hcN' : c < N := by omega
      obtain ⟨hp0, hmem0⟩ := hn6 c hcN' hc0
      rw [hpar c hcN]
      refine ⟨hp0, ?_⟩
      set pc := (r.nodeAt c).parent.getD 0 with hpc
      have hpcN : pc ≠ N := by
        intro hcon
        rw [hcon] at hmem0
        rw [nodeAt_ge (le_refl N)] at hmem0
        exact absurd hmem0 (by simp [dNode])
      by_cases hpcf : pc = fr
      · rw [hpcf]
        rw [hchfr]
        exact List.mem_append.mpr (Or.inl (hpcf ▸ hmem0))
      · rw [hch pc hpcf hpcN]
        exact hmem0
  · intro i hi
    rw [hlen] at hi
    by_cases hiN : i = N
    · subst hiN
      rw [hsfN, hsf2]
      exact hdesc
    · rw [hsf i hiN, hsf2]
      exact hn7 i (by omega)
  · intro c hc hc0
    rw [hlen] at hc
    by_cases hcN : c = N
    · subst hcN
      rw [hsfN, hsf2]
      exact hroot
    · rw [hsf c hcN, hsf2]
      exact hn8 c (by omega) hc0
  · intro e he
    rw [hm2map] at he
    rcases List.mem_append.mp he with h | h
    · obtain ⟨h1', h2', h3', h4'⟩ := hm1 e h
      refine ⟨h1', by omega, ?_, by rw [hsf2]; exact h4'⟩
      rw [hsf e.2 (by omega)]
      exact h3'
    · rw [List.mem_singleton] at h
      subst h
      refine ⟨by omega, by rw [hlen]; omega, hsfN, by rw [hsf2]; exact hroot⟩
  · rw [hm2map, List.map_append, List.nodup_append]
    refine ⟨hm2, by simp, ?_⟩
    intro k hk hk1
    simp at hk1
    subst hk1
    rw [List.mem_map] at hk
    obtain ⟨e, he, hke⟩ := hk
    exact hfresh e he hke
  · intro i hi hi0
    rw [hlen] at hi
    by_cases hiN : i = N
    · subst hiN
      rw [hsfN, hm2map]
      exact lookupPath_concat_self hfresh
    · have hiN' : i < N := by omega
      rw [hsf i hiN, hm2map]
      have hkne : (r.nodeAt i).source_folder ≠ h1 := by
        intro hcon
        rw [← hcon] at hlook
        rw [hm3 i hiN' hi0] at hlook
        exact absurd hlook (by simp)
      rw [lookupPath_concat_ne hkne]
      exact hm3 i hiN' hi0
  · intro i hi rid hrid
    rw [hlen] at hi
    by_cases hiN : i = N
    · subst hiN
      rw [hresN] at hrid
      simp at hrid
    · rw [hresf i hiN] at hrid
      obtain ⟨h1', h2'⟩ := hres1 i (by omega) rid hrid
      rw [hrh, hra rid]
      exact ⟨h1', h2'⟩
  · intro i hi
    rw [hlen] at hi
    by_cases hiN : i = N
    · subst hiN
      rw [hresN]
      exact List.nodup_nil
    · rw [hresf i hiN]
      exact hres2 i (by omega)
  · intro rid hrid
    rw [hrh] at hrid
    obtain ⟨h1', h2', h3'⟩ := hres3 rid hrid
    rw [hra rid, hlen]
    refine ⟨by omega, ?_, ?_⟩
    · rw [hresf _ (by omega)]
      exact h2'
    · rw [hsf _ (by omega)]
      exact h3'
  · intro e he
    rw [hrm] at he
    obtain ⟨h1', h2'⟩ := hres4 e he
    rw [hrh, hra e.2]
    exact ⟨h1', h2'⟩
  · rw [hrm]
    exact hres5

/-- Along a parent-path chain, later entries are strictly longer paths. -/
theorem chain_parent_lt {x : Path} {t : List Path} :
    List.Chain' (fun a b => parentPath b = a) (x :: t) →
    (∀ h ∈ t, h ≠ ([] : Path)) → ∀ h ∈ t, x.length < h.length := by
  induction t generalizing x with
  | nil =>
    intro _ _ h hmem
    simp at hmem
  | cons y s ih =>
    intro hch hne h hmem
    rw [List.chain'_cons] at hch
    obtain ⟨hxy, hch'⟩ := hch
    have hylen : y.length = x.length + 1 := by
      have hd : y.dropLast.length = x.length := by
        rw [show y.dropLast = x from hxy]
      rw [List.length_dropLast] at hd
      have h3 : 0 < y.length := List.length_pos.mpr (hne y (by simp))
      omega
    rcases List.mem_cons.mp hmem with h1 | h1
    · subst h1
      omega
    · have := ih hch' (fun h hm => hne h (by simp [hm])) h h1
      omega

/-- `mapInsert` keeps the key list duplicate-free. -/
theorem mapInsert_keys_nodup {m : List (Path × Nat)} {p : Path} {v : Nat}
    (h : (m.map Prod.fst).Nodup) : ((mapInsert m p v).map Prod.fst).Nodup := by
  unfold mapInsert
  by_cases hany : m.any (fun e => decide (e.1 = p))
  · rw [if_pos hany]
    have hkeys : (m.map (fun e => if e.1 = p then (p, v) else e)).map Prod.fst
        = m.map Prod.fst := by
      rw [List.map_map]
      apply List.map_congr_left
      intro e he
      by_cases hep : e.1 = p
      · simp [hep]
      · simp [hep]
    rw [hkeys]
    exact h
  · rw [if_neg hany, List.map_append, List.nodup_append]
    refine ⟨h, by simp, ?_⟩
    intro k hk hk1
    simp at hk1
    subst hk1
    rw [List.mem_map] at hk
    obtain ⟨e, he, hke⟩ := hk
    simp only [List.any_eq_true, decide_eq_true_eq] at hany
    exact hany ⟨e, he, hke⟩

/-- Every entry of `mapInsert m p v` is the new binding or an old entry with
a different key. -/
theorem mapInsert_entries {m : List (Path × Nat)} {p : Path} {v : Nat} :
    ∀ e ∈ mapInsert m p v, e = (p, v) ∨ (e ∈ m ∧ e.1 ≠ p) := by
  intro e he
  unfold mapInsert at he
  by_cases hany : m.any (fun e => decide (e.1 = p))
  · rw [if_pos hany] at he
    rw [List.mem_map] at he
    obtain ⟨e', he', hee⟩ := he
    by_cases hep : e'.1 = p
    · rw [if_pos hep] at hee
      exact Or.inl hee.symm
    · rw [if_neg hep] at hee
      subst hee
      exact Or.inr ⟨he', hep⟩
  · rw [if_neg hany] at he
    rcases List.mem_append.mp he with h | h
    · refine Or.inr ⟨h, ?_⟩
      intro hcon
      simp only [List.any_eq_true, decide_eq_true_eq] at hany
      exact hany ⟨e, h, hcon⟩
    · rw [List.mem_singleton] at h
      exact Or.inl h

/-- `resSync` transfers along equal resource state. -/
theorem resSync_transfer {r r' : RootNode} (hsync : resSync r)
    (h1 : r'.resHeap = r.resHeap) (h2 : r'.resource_map = r.resource_map) :
    resSync r' := by
  intro rid hrid
  rw [h1] at hrid
  show lookupPath r'.resource_map ((r'.resHeap.getD rid dRes).source_file) = some rid
  rw [h1, h2]
  exact hsync rid hrid

/-- The materialization loop preserves well-formedness and never touches the
resource side, provided the pending folders form a fresh parent-path chain
below the frontier. -/
theorem materialize_WF :
    ∀ (hs : List Path) (r : RootNode) (fr : Nat) {r' : RootNode} {nid : Nat},
      WF r → fr < r.nodeHeap.length →
      List.Chain' (fun x y => parentPath y = x) ((r.nodeAt fr).source_folder :: hs) →
      (∀ h ∈ hs, lookupPath r.node_map h = none ∧ h ≠ r.source_folder ∧
                 isDescendantOf h r.source_folder = true ∧ h ≠ ([] : Path)) →
      RootNode.materialize r fr hs = .ok (r', nid) →
      WF r' ∧ r'.source_folder = r.source_folder ∧ r'.resHeap = r.resHeap ∧
      r'.resource_map = r.resource_map := by
  intro hs
  induction hs with
  | nil =>
    intro r fr r' nid hwf hfr hch hprops h
    unfold RootNode.materialize at h
    injection h with h'
    injection h' with h1 h2
    subst h1
    exact ⟨hwf, rfl, rfl, rfl⟩
  | cons x t ih =>
    intro r fr r' nid hwf hfr hch hprops h
    unfold RootNode.materialize at h
    cases hacn : r.add_child_node fr x with
    | error e =>
      rw [hacn] at h
      exact absurd h (by simp)
    | ok p1 =>
      obtain ⟨r1, n1⟩ := p1
      rw [hacn] at h
      obtain ⟨-, hneq, -⟩ := add_child_node_ok_elim hacn
      subst hneq
      obtain ⟨hlookx, hrootx, hdescx, hnilx⟩ := hprops x (by simp)
      obtain ⟨hwf2, hsf2, hrh2, hrm2, hlen2, hmap2, hsfN2⟩ :=
        WF_after_acn_insert hwf hfr hacn hlookx hrootx hdescx
          { r1 with node_map := mapInsert r1.node_map x r.nodeHeap.length } rfl
      have hchx : List.Chain' (fun a b => parentPath b = a) (x :: t) :=
        (List.chain'_cons.mp hch).2
      have hlonger := chain_parent_lt hchx (fun h hm => (hprops h (by simp [hm])).2.2.2)
      obtain ⟨hres', hsf', hrh', hrm'⟩ := ih _ r.nodeHeap.length hwf2 (by omega)
        (by rw [hsfN2]; exact hchx)
        (by
          intro h2 hm2
          obtain ⟨hl, hr, hd, hn⟩ := hprops h2 (by simp [hm2])
          have hne : h2 ≠ x := by
            have := hlonger h2 hm2
            intro hcon
            rw [hcon] at this
            omega
          refine ⟨?_, by rw [hsf2]; exact hr, by rw [hsf2]; exact hd, hn⟩
          rw [hmap2, lookupPath_concat_ne hne]
          exact hl)
        h
      exact ⟨hres', hsf'.trans hsf2, hrh'.trans hrh2, hrm'.trans hrm2⟩

/-- Specification of the climb loop: starting strictly inside the hierarchy
at an unmapped folder, it returns the folder-to-ancestor chain (deepest
first), with every recorded folder unmapped, non-root, non-empty and inside
the hierarchy, and the reversed chain parent-linked from the found node. -/
theorem climb_spec {r : RootNode} (hwf : WF r) :
    ∀ fuel p, r.node_from_path p = none → isDescendantOf p r.source_folder = true →
      p.length ≤ r.source_folder.length + fuel →
      ∃ hs anc, r.climb p fuel = (hs, some anc) ∧
        anc < r.nodeHeap.length ∧
        List.Chain' (fun x y => parentPath y = x)
          ((r.nodeAt anc).source_folder :: hs.reverse) ∧
        (∀ h ∈ hs, lookupPath r.node_map h = none ∧ h ≠ r.source_folder ∧
          isDescendantOf h r.source_folder = true ∧ h ≠ ([] : Path)) ∧
        hs.head? = some p := by
  intro fuel
  induction fuel with
  | zero =>
    intro p hnfp hdesc hlen
    exfalso
    have hpref : r.source_folder <+: p := List.isPrefixOf_iff_prefix.mp hdesc
    have hne : p ≠ r.source_folder := by
      intro hcon
      rw [RootNode.node_from_path, if_pos hcon] at hnfp
      exact absurd hnfp (by simp)
    have hle := hpref.length_le
    exact hne (hpref.eq_of_length (by omega)).symm
  | succ fuel ih =>
    intro p hnfp hdesc hlen
    have hpref : r.source_folder <+: p := List.isPrefixOf_iff_prefix.mp hdesc
    have hne : p ≠ r.source_folder := by
      intro hcon
      rw [RootNode.node_from_path, if_pos hcon] at hnfp
      exact absurd hnfp (by simp)
    have hplt : r.source_folder.length < p.length := by
      rcases Nat.lt_or_ge r.source_folder.length p.length with h | h
      · exact h
      · exact absurd (hpref.eq_of_length (by have := hpref.length_le; omega)).symm hne
    have hlookp : lookupPath r.node_map p = none := by
      rw [RootNode.node_from_path, if_neg hne] at hnfp
      exact hnfp
    have hpnil : p ≠ ([] : Path) := by
      intro hcon
      rw [hcon] at hplt
      simp at hplt
    obtain ⟨extra, hextra⟩ := hpref
    have hexne : extra ≠ [] := by
      intro hcon
      rw [hcon, List.append_nil] at hextra
      exact hne hextra.symm
    cases hm : r.node_from_path (parentPath p) with
    | some anc =>
      obtain ⟨hanclt, hancpath⟩ := nfp_sound hwf hm
      refine ⟨[p], anc, climb_succ_found _ _ _ hm, hanclt, ?_, ?_, rfl⟩
      · show List.Chain' _ [(r.nodeAt anc).source_folder, p]
        rw [List.chain'_pair, hancpath]
      · intro h hm'
        rw [List.mem_singleton] at hm'
        subst hm'
        exact ⟨hlookp, hne, hdesc, hpnil⟩
    | none =>
      have hppdesc : isDescendantOf (parentPath p) r.source_folder = true := by
        unfold isDescendantOf
        rw [List.isPrefixOf_iff_prefix]
        show r.source_folder <+: p.dropLast
        rw [← hextra, List.dropLast_append_of_ne_nil _ hexne]
        exact List.prefix_append _ _
      have hpplen : (parentPath p).length ≤ r.source_folder.length + fuel := by
        show p.dropLast.length ≤ _
        rw [List.length_dropLast]
        omega
      obtain ⟨hs', anc, hcl, hanclt, hchain, hprops, hhead⟩ :=
        ih (parentPath p) hm hppdesc hpplen
      obtain ⟨s2, hs2⟩ : ∃ s2, hs' = parentPath p :: s2 := by
        cases hs' with
        | nil => simp at hhead
        | cons a s2 =>
          rw [List.head?_cons] at hhead
          injection hhead with hhead
          exact ⟨s2, by rw [hhead]⟩
      refine ⟨p :: hs', anc, ?_, hanclt, ?_, ?_, rfl⟩
      · rw [climb_succ_none _ _ _ hm, hcl]
      · rw [List.reverse_cons,
            show (r.nodeAt anc).source_folder :: (hs'.reverse ++ [p]) =
              ((r.nodeAt anc).source_folder :: hs'.reverse) ++ [p] from rfl,
            List.chain'_append]
        refine ⟨hchain, List.chain'_singleton _, ?_⟩
        intro u hu v hv
        rw [List.head?_cons] at hv
        injection hv with hv
        subst hv
        have hlast : ((r.nodeAt anc).source_folder :: hs'.reverse).getLast? =
            some (parentPath p) := by
          rw [hs2, List.reverse_cons,
              show (r.nodeAt anc).source_folder :: (s2.reverse ++ [parentPath p]) =
                ((r.nodeAt anc).source_folder :: s2.reverse) ++ [parentPath p] from rfl,
              List.getLast?_concat]
        rw [hlast] at hu
        injection hu with hu
      · intro h hm'
        rcases List.mem_cons.mp hm' with h1 | h1
        · subst h1
          exact ⟨hlookp, hne, hdesc, hpnil⟩
        · exact hprops h h1

/-- `add_node` preserves well-formedness and never touches the resource
side. -/
theorem add_node_WF {r : RootNode} {p : Path} {r' : RootNode} {nid : Nat}
    (hwf : WF r) (h : r.add_node p = .ok (r', nid)) :
    WF r' ∧ r'.source_folder = r.source_folder ∧ r'.resHeap = r.resHeap ∧
    r'.resource_map = r.resource_map := by
  unfold RootNode.add_node at h
  cases hnp : r.node_from_path p with
  | some nid0 =>
    rw [hnp] at h
    injection h with h'
    injection h' with h1 h2
    subst h1
    exact ⟨hwf, rfl, rfl, rfl⟩
  | none =>
    simp only [hnp] at h
    by_cases hdesc : isDescendantOf p r.source_folder = true
    · rw [if_neg (by simp [hdesc])] at h
      obtain ⟨hs, anc, hcl, hanclt, hchain, hprops, -⟩ :=
        climb_spec hwf p.length p hnp hdesc (by omega)
      simp only [hcl] at h
      exact materialize_WF hs.reverse r anc hwf hanclt hchain
        (fun x hx => hprops x (by rwa [List.mem_reverse] at hx)) h
    · rw [if_pos (by simpa using hdesc)] at h
      exact absurd h (by simp)

/-- Attaching a resource to the node found for its parent directory, followed
by the table insertion, preserves well-formedness; the table change is
confined to the key `f`, and table/heap sync is kept when `f` was fresh. -/
theorem WF_after_acr_insert {r r1 : RootNode} {nd : Nat} {f : Path}
    (hwf : WF r) (hnfp : r.node_from_path (parentPath f) = some nd)
    (hacr : r.add_child_resource nd f = .ok (r1, r.resHeap.length))
    (r2 : RootNode)
    (hr2 : r2 = { r1 with resource_map := mapInsert r1.resource_map f r.resHeap.length }) :
    WF r2 ∧ r2.source_folder = r.source_folder ∧
    (∀ q, q ≠ f → lookupPath r2.resource_map q = lookupPath r.resource_map q) ∧
    (lookupPath r.resource_map f = none → resSync r → resSync r2) := by
  obtain ⟨hndlt, hndpath⟩ := nfp_sound hwf hnfp
  obtain ⟨hnodes, hmap, hres⟩ := hwf
  obtain ⟨hn1, hn2, hn3, hn4, hn5, hn6, hn7, hn8⟩ := hnodes
  obtain ⟨hm1, hm2, hm3⟩ := hmap
  obtain ⟨hres1, hres2, hres3, hres4, hres5⟩ := hres
  have hat := nodeAt_after_acr hacr hndlt
  have hrat := resAt_after_acr hacr
  obtain ⟨-, hrlen1, hnlen1, hsfeq, hnmape, hrmape⟩ := misc_after_acr hacr
  subst hr2
  set L := r.resHeap.length with hL
  set r2 : RootNode := { r1 with resource_map := mapInsert r1.resource_map f L } with hr2
  have hat2 : ∀ j, r2.nodeAt j = r1.nodeAt j := fun j => rfl
  have hrat2 : ∀ j, r2.resAt j = r1.resAt j := fun j => rfl
  have hsf : ∀ j, (r2.nodeAt j).source_folder = (r.nodeAt j).source_folder := by
    intro j
    rw [hat2 j, hat j]
    by_cases hjn : j = nd
    · subst hjn
      rw [if_pos rfl]
    · rw [if_neg hjn]
  have hpar : ∀ j, (r2.nodeAt j).parent = (r.nodeAt j).parent := by
    intro j
    rw [hat2 j, hat j]
    by_cases hjn : j = nd
    · subst hjn
      rw [if_pos rfl]
    · rw [if_neg hjn]
  have hchh : ∀ j, (r2.nodeAt j).child_nodes = (r.nodeAt j).child_nodes := by
    intro j
    rw [hat2 j, hat j]
    by_cases hjn : j = nd
    · subst hjn
      rw [if_pos rfl]
    · rw [if_neg hjn]
  have hresnd : (r2.nodeAt nd).resources = (r.nodeAt nd).resources ++ [L] := by
    rw [hat2 nd, hat nd, if_pos rfl]
  have hresoth : ∀ j, j ≠ nd → (r2.nodeAt j).resources = (r.nodeAt j).resources := by
    intro j hj
    rw [hat2 j, hat j, if_neg hj]
  have hraL : r2.resAt L = { source_file := f, node := nd } := by
    rw [hrat2 L, hrat L, if_pos rfl]
  have hraold : ∀ j, j ≠ L → r2.resAt j = r.resAt j := by
    intro j hj
    rw [hrat2 j, hrat j, if_neg hj]
  have hnlen : r2.nodeHeap.length = r.nodeHeap.length := hnlen1
  have hrlen : r2.resHeap.length = L + 1 := hrlen1
  have hsf2 : r2.source_folder = r.source_folder := hsfeq
  have hnm : r2.node_map = r.node_map := hnmape
  have hrm2 : r2.resource_map = mapInsert r.resource_map f L := by
    show mapInsert r1.resource_map f L = _
    rw [hrmape]
  refine ⟨⟨⟨?_, ?_, ?_, ?_, ?_, ?_, ?_, ?_⟩, ⟨?_, ?_, ?_⟩, ⟨?_, ?_, ?_, ?_, ?_⟩⟩,
          hsf2, ?_, ?_⟩
  · rw [hnlen]; omega
  · rw [hsf 0, hsf2]
    exact hn2
  · rw [hpar 0]
    exact hn3
  · intro i hi c hc
    rw [hnlen] at hi
    rw [hchh i] at hc
    obtain ⟨h1', h2', h3'⟩ := hn4 i hi c hc
    rw [hnlen, hpar c]
    exact ⟨h1', h2', h3'⟩
  · intro i hi
    rw [hnlen] at hi
    rw [hchh i]
    exact hn5 i hi
  · intro c hc hc0
    rw [hnlen] at hc
    obtain ⟨hp0, hmem0⟩ := hn6 c hc hc0
    rw [hpar c, hchh _]
    exact ⟨hp0, hmem0⟩
  · intro i hi
    rw [hnlen] at hi
    rw [hsf i, hsf2]
    exact hn7 i hi
  · intro c hc hc0
    rw [hnlen] at hc
    rw [hsf c, hsf2]
    exact hn8 c hc hc0
  · intro e he
    rw [hnm] at he
    obtain ⟨h1', h2', h3', h4'⟩ := hm1 e he
    rw [hnlen, hsf e.2, hsf2]
    exact ⟨h1', h2', h3', h4'⟩
  · rw [hnm]
    exact hm2
  · intro i hi hi0
    rw [hnlen] at hi
    rw [hsf i, hnm]
    exact hm3 i hi hi0
  · intro i hi rid hrid
    rw [hnlen] at hi
    rw [hrlen]
    by_cases hin : i = nd
    · subst hin
      rw [hresnd] at hrid
      rcases List.mem_append.mp hrid with hm' | hm'
      · obtain ⟨h1', h2'⟩ := hres1 i hi rid hm'
        rw [hraold rid (by omega)]
        exact ⟨by omega, h2'⟩
      · rw [List.mem_singleton] at hm'
        subst hm'
        rw [hraL]
        exact ⟨by omega, rfl⟩
    · rw [hresoth i hin] at hrid
      obtain ⟨h1', h2'⟩ := hres1 i hi rid hrid
      rw [hraold rid (by omega)]
      exact ⟨by omega, h2'⟩
  · intro i hi
    rw [hnlen] at hi
    by_cases hin : i = nd
    · subst hin
      rw [hresnd, List.nodup_append]
      refine ⟨hres2 i hi, List.nodup_singleton _, ?_⟩
      intro c hcmem hcL
      rw [List.mem_singleton] at hcL
      obtain ⟨h1', -⟩ := hres1 i hi c hcmem
      omega
    · rw [hresoth i hin]
      exact hres2 i hi
  · intro rid hrid
    rw [hrlen] at hrid
    rw [hnlen]
    by_cases hrL : rid = L
    · subst hrL
      rw [hraL]
      refine ⟨hndlt, ?_, ?_⟩
      · rw [hresnd]
        exact List.mem_append.mpr (Or.inr (by simp))
      · rw [hsf nd]
        exact hndpath.symm ▸ rfl
    · have hrid' : rid < L := by omega
      obtain ⟨h1', h2', h3'⟩ := hres3 rid hrid'
      rw [hraold rid hrL]
      refine ⟨h1', ?_, ?_⟩
      · by_cases hon : (r.resAt rid).node = nd
        · rw [hon, hresnd]
          exact List.mem_append.mpr (Or.inl (hon ▸ h2'))
        · rw [hresoth _ hon]
          exact h2'
      · rw [hsf _]
        exact h3'
  · intro e he
    rw [hrm2] at he
    rcases mapInsert_entries e he with h | h
    · subst h
      rw [hrlen, hraL]
      exact ⟨by omega, rfl⟩
    · obtain ⟨hmem', -⟩ := h
      obtain ⟨h1', h2'⟩ := hres4 e hmem'
      rw [hrlen, hraold e.2 (by omega)]
      exact ⟨by omega, h2'⟩
  · rw [hrm2]
    exact mapInsert_keys_nodup hres5
  · intro q hq
    rw [hrm2]
    exact lookupPath_mapInsert_ne hq
  · intro hfresh hsync
    have hfresh' : ∀ e ∈ r.resource_map, e.1 ≠ f := lookupPath_eq_none.mp hfresh
    intro rid hrid
    rw [hrlen] at hrid
    rw [hrm2, mapInsert_of_fresh hfresh']
    by_cases hrL : rid = L
    · subst hrL
      rw [hraL]
      exact lookupPath_concat_self hfresh'
    · have hrid' : rid < L := by omega
      rw [hraold rid hrL]
      have hqne : (r.resAt rid).source_file ≠ f := by
        intro hcon
        rw [← hcon] at hfresh
        rw [hsync rid hrid'] at hfresh
        exact absurd hfresh (by simp)
      rw [lookupPath_concat_ne hqne]
      exact hsync rid hrid'

/-- `add_resource` preserves well-formedness; its resource-table change is
confined to the key it was given, and sync is kept when that key was fresh. -/
theorem add_resource_WF {r : RootNode} {f : Path} {r' : RootNode} {rid : Nat}
    (hwf : WF r) (h : r.add_resource f = .ok (r', rid)) :
    WF r' ∧ r'.source_folder = r.source_folder ∧
    (∀ q, q ≠ f → lookupPath r'.resource_map q = lookupPath r.resource_map q) ∧
    (lookupPath r.resource_map f = none → resSync r → resSync r') := by
  unfold RootNode.add_resource at h
  by_cases hdesc : isDescendantOf f r.source_folder = true
  · rw [if_neg (by simp [hdesc])] at h
    cases hnp : r.node_from_path (parentPath f) with
    | some nd =>
      simp only [hnp] at h
      cases hacr : r.add_child_resource nd f with
      | error e =>
        rw [hacr] at h
        exact absurd h (by simp)
      | ok p1 =>
        obtain ⟨r1, rid1⟩ := p1
        rw [hacr] at h
        obtain ⟨-, hrideq, -⟩ := add_child_resource_ok_elim hacr
        subst hrideq
        injection h with h'
        injection h' with h1 h2
        subst h1
        exact (WF_after_acr_insert hwf hnp hacr _ rfl).imp id id
    | none =>
      simp only [hnp] at h
      cases hadd : r.add_node (parentPath f) with
      | error e =>
        rw [hadd] at h
        exact absurd h (by simp)
      | ok pa =>
        obtain ⟨ra, nd⟩ := pa
        simp only [hadd] at h
        obtain ⟨hwfa, hsfa, hrha, hrma⟩ := add_node_WF hwf hadd
        obtain ⟨hnfa, -⟩ := add_node_lookup_self hadd
        cases hacr : ra.add_child_resource nd f with
        | error e =>
          rw [hacr] at h
          exact absurd h (by simp)
        | ok p1 =>
          obtain ⟨r1, rid1⟩ := p1
          rw [hacr] at h
          obtain ⟨-, hrideq, -⟩ := add_child_resource_ok_elim hacr
          subst hrideq
          injection h with h'
          injection h' with h1 h2
          subst h1
          obtain ⟨hwf', hsf', hpres', hsync'⟩ :=
            WF_after_acr_insert hwfa hnfa hacr _ rfl
          refine ⟨hwf', hsf'.trans hsfa, ?_, ?_⟩
          · intro q hq
            rw [hpres' q hq, hrma]
          · intro hfr hsr
            apply hsync'
            · rw [hrma]
              exact hfr
            · exact resSync_transfer hsr hrha hrma
  · rw [if_pos (by simpa using hdesc)] at h
    exact absurd h (by simp)

/-- A fresh root is well-formed. -/
theorem WF_init (R : Path) : WF (RootNode.init R) := by
  refine ⟨⟨Nat.one_pos, rfl, rfl, ?_, ?_, ?_, ?_, ?_⟩, ⟨?_, ?_, ?_⟩, ⟨?_, ?_, ?_, ?_, ?_⟩⟩
  · intro i hi c hc
    have hi0 : i = 0 := by
      have : i < 1 := hi
      omega
    subst hi0
    simp [RootNode.init, RootNode.nodeAt] at hc
  · intro i hi
    have hi0 : i = 0 := by
      have : i < 1 := hi
      omega
    subst hi0
    show (List.Nodup [])
    exact List.nodup_nil
  · intro c hc hc0
    have : c < 1 := hc
    omega
  · intro i hi
    have hi0 : i = 0 := by
      have : i < 1 := hi
      omega
    subst hi0
    show isDescendantOf R R = true
    unfold isDescendantOf
    rw [List.isPrefixOf_iff_prefix]
  · intro c hc hc0
    have : c < 1 := hc
    omega
  · intro e he
    simp [RootNode.init] at he
  · show (List.map Prod.fst []).Nodup
    simp
  · intro i hi hi0
    have : i < 1 := hi
    omega
  · intro i hi rid hrid
    have hi0 : i = 0 := by
      have : i < 1 := hi
      omega
    subst hi0
    simp [RootNode.init, RootNode.nodeAt] at hrid
  · intro i hi
    have hi0 : i = 0 := by
      have : i < 1 := hi
      omega
    subst hi0
    show (List.Nodup [])
    exact List.nodup_nil
  · intro rid hrid
    have : rid < 0 := hrid
    omega
  · intro e he
    simp [RootNode.init] at he
  · show (List.map Prod.fst []).Nodup
    simp

/-- A fresh root trivially satisfies the resource sync. -/
theorem resSync_init (R : Path) : resSync (RootNode.init R) := by
  intro rid hrid
  have : rid < 0 := hrid
  omega

theorem resArgs_cons_node (p : Path) (t : List Op) :
    resArgs (Op.addNode p :: t) = resArgs t := rfl

theorem resArgs_cons_res (p : Path) (t : List Op) :
    resArgs (Op.addResource p :: t) = p :: resArgs t := rfl

/-- Running a sequence of successful events from a well-formed, synced state
whose pending resource paths are fresh and pairwise distinct keeps the state
well-formed and synced. -/
theorem runOps_WF {ops : List Op} :
    ∀ {r0 r : RootNode}, WF r0 → resSync r0 →
      (∀ p ∈ resArgs ops, lookupPath r0.resource_map p = none) →
      (resArgs ops).Nodup →
      runOps r0 ops = .ok r → WF r ∧ resSync r := by
  induction ops with
  | nil =>
    intro r0 r hwf hsync hargs hnd h
    unfold runOps at h
    injection h with h
    subst h
    exact ⟨hwf, hsync⟩
  | cons o t ih =>
    intro r0 r hwf hsync hargs hnd h
    unfold runOps at h
    cases hop : runOp r0 o with
    | error e =>
      rw [hop] at h
      exact absurd h (by simp)
    | ok r1 =>
      simp only [hop] at h
      cases o with
      | addNode p =>
        simp only [runOp] at hop
        cases han : r0.add_node p with
        | error e =>
          rw [han] at hop
          exact absurd hop (by simp [Except.map])
        | ok pr =>
          obtain ⟨r1', nid⟩ := pr
          rw [han] at hop
          simp only [Except.map] at hop
          injection hop with hop
          have hop' : r1' = r1 := hop
          subst hop'
          obtain ⟨hwf1, -, hrh1, hrm1⟩ := add_node_WF hwf han
          apply ih hwf1 (resSync_transfer hsync hrh1 hrm1) ?_ ?_ h
          · intro q hq
            rw [hrm1]
            exact hargs q (by rw [resArgs_cons_node]; exact hq)
          · rw [resArgs_cons_node] at hnd
            exact hnd
      | addResource p =>
        simp only [runOp] at hop
        cases har : r0.add_resource p with
        | error e =>
          rw [har] at hop
          exact absurd hop (by simp [Except.map])
        | ok pr =>
          obtain ⟨r1', rid⟩ := pr
          rw [har] at hop
          simp only [Except.map] at hop
          injection hop with hop
          have hop' : r1' = r1 := hop
          subst hop'
          have hpfresh : lookupPath r0.resource_map p = none :=
            hargs p (by rw [resArgs_cons_res]; simp)
          obtain ⟨hwf1, -, hpres1, hsync1⟩ := add_resource_WF hwf har
          rw [resArgs_cons_res, List.nodup_cons] at hnd
          apply ih hwf1 (hsync1 hpfresh hsync) ?_ hnd.2 h
          intro q hq
          have hqp : q ≠ p := fun hcon => hnd.1 (hcon ▸ hq)
          rw [hpres1 q hqp]
          exact hargs q (by rw [resArgs_cons_res]; exact List.mem_cons_of_mem _ hq)

/-- C4 counterexample: the successful event sequence that adds the file `c/x`
twice.  Resource `0` is reachable by `walk_resources()` from the root, yet
has no entry in the resource table (the table's only entry is for the newer
duplicate, resource `1`); likewise the root node itself is reachable by
`walk()` but has no entry in the node table.  So tables and tree are *not*
always in sync after successful calls. -/
theorem c4_counterexample :
    runOps (RootNode.init ["c"]) [Op.addResource ["c", "x"], Op.addResource ["c", "x"]]
      = .ok dupResState2 ∧
    0 ∈ dupResState2.walk_resources 0 ∧
    dupResState2.resource_map.countP (fun e => e.2 = 0) = 0 ∧
    0 ∈ dupResState2.walk 0 ∧
    dupResState2.node_map.countP (fun e => e.2 = 0) = 0 := by
  decide

/-- C4 amended: after any sequence of successful `add_node`/`add_resource`
calls in which no file path is passed to `add_resource` twice, the tables and
the tree are in sync up to two provisos the code forces: the root itself
(always reachable by `walk()`) is served by `node_from_path`'s special case
and has no table entry, and a duplicate `add_resource` would leave the older
resource reachable but table-less.  Precisely: `walk()` from the root
enumerates exactly the allocated nodes once each; every *non-root* walked
node has exactly one node-table entry, keyed by its path, and every
node-table entry denotes a walked non-root node with that path; and
`walk_resources()` enumerates exactly the allocated resources once each,
each with exactly one resource-table entry keyed by its path and conversely. -/
theorem c4_amended_tables_tree_sync (R : Path) (ops : List Op) (r : RootNode)
    (hnd : (resArgs ops).Nodup)
    (hrun : runOps (RootNode.init R) ops = .ok r) :
    (r.walk 0).Perm (List.range r.nodeHeap.length) ∧
    (∀ nid ∈ r.walk 0, 0 < nid →
        r.node_map.countP (fun e => e.2 = nid) = 1 ∧
        lookupPath r.node_map ((r.nodeAt nid).source_folder) = some nid) ∧
    (∀ e ∈ r.node_map, e.2 ∈ r.walk 0 ∧ 0 < e.2 ∧ (r.nodeAt e.2).source_folder = e.1) ∧
    (r.walk_resources 0).Perm (List.range r.resHeap.length) ∧
    (∀ rid ∈ r.walk_resources 0,
        r.resource_map.countP (fun e => e.2 = rid) = 1 ∧
        lookupPath r.resource_map ((r.resAt rid).source_file) = some rid) ∧
    (∀ e ∈ r.resource_map, e.2 ∈ r.walk_resources 0 ∧ (r.resAt e.2).source_file = e.1) := by
  obtain ⟨hwf, hsync⟩ := runOps_WF (WF_init R) (resSync_init R)
    (by intro p hp; rfl) hnd hrun
  obtain ⟨hnodes, hmap, hres⟩ := hwf
  refine ⟨walk_zero_perm hnodes, ?_, ?_, ?_, ?_, ?_⟩
  · intro nid hmem h0
    have hlt := (walk_mem_bounds hnodes r.nodeHeap.length 0 hnodes.1 (by omega) nid hmem).2
    have hlook := hmap.2.2 nid hlt h0
    refine ⟨?_, hlook⟩
    apply countP_val_eq_one hmap.2.1 (lookupPath_mem hlook)
    intro e he hev
    have hpath := (hmap.1 e he).2.2.1
    rw [← hpath, hev]
  · intro e he
    obtain ⟨h1', h2', h3', -⟩ := hmap.1 e he
    exact ⟨walk_mem_of_ancs hnodes e.2 h2' 0 (zero_mem_ancs hnodes e.2 h2'), h1', h3'⟩
  · exact (walk_resources_zero_perm hnodes hres).1
  · intro rid hrmem
    have hrlt := ((walk_resources_zero_perm hnodes hres).2 rid).mp hrmem
    have hlook := hsync rid hrlt
    refine ⟨?_, hlook⟩
    apply countP_val_eq_one hres.2.2.2.2 (lookupPath_mem hlook)
    intro e he hev
    have hfile := (hres.2.2.2.1 e he).2
    rw [← hfile, hev]
  · intro e he
    obtain ⟨h1', h2'⟩ := hres.2.2.2.1 e he
    exact ⟨((walk_resources_zero_perm hnodes hres).2 e.2).mpr h1', h2'⟩

/-- Witness for the amended C4: the sample run that adds a directory and then
a file whose parent directories have not been visited yet. -/
theorem c4_amended_tables_tree_sync_witness :
    (resArgs sampleOps).Nodup ∧
    runOps (RootNode.init ["c"]) sampleOps = .ok sampleOpsState ∧
    ((sampleOpsState.walk 0).Perm (List.range sampleOpsState.nodeHeap.length) ∧
     (∀ nid ∈ sampleOpsState.walk 0, 0 < nid →
         sampleOpsState.node_map.countP (fun e => e.2 = nid) = 1 ∧
         lookupPath sampleOpsState.node_map
           ((sampleOpsState.nodeAt nid).source_folder) = some nid) ∧
     (∀ e ∈ sampleOpsState.node_map, e.2 ∈ sampleOpsState.walk 0 ∧ 0 < e.2 ∧
         (sampleOpsState.nodeAt e.2).source_folder = e.1) ∧
     (sampleOpsState.walk_resources 0).Perm (List.range sampleOpsState.resHeap.length) ∧
     (∀ rid ∈ sampleOpsState.walk_resources 0,
         sampleOpsState.resource_map.countP (fun e => e.2 = rid) = 1 ∧
         lookupPath sampleOpsState.resource_map
           ((sampleOpsState.resAt rid).source_file) = some rid) ∧
     (∀ e ∈ sampleOpsState.resource_map, e.2 ∈ sampleOpsState.walk_resources 0 ∧
         (sampleOpsState.resAt e.2).source_file = e.1)) :=
  ⟨by decide, by decide,
   c4_amended_tables_tree_sync ["c"] sampleOps sampleOpsState (by decide) (by decide)⟩

end Hyde
